import Mathlib

/-!
Shallow embedding of the ZIP-puzzle core (board model, path validator,
Hamiltonian generator, clue selector, uniqueness counter, constrained
solver) from `src/core/board.py`, `src/core/solver.py`,
`src/core/generator.py` and `src/config/config.py`, together with proofs
about the embedded code.

Modeling conventions:
* Python `int` is `Int`; list lengths and fuel are `Nat`.
* A Python `dict` with `int` keys is an association list; assignment
  replaces the previous binding for the key.  The embedded code only ever
  looks keys up or sorts them, so bindings order is unobservable.
* `random.shuffle` / `random.choice` are oracle parameters.  A shuffle
  oracle may depend on the search state, which covers every possible
  stream of the process-wide random source.
* The wall clock read `time.time() - start_time > time_limit` is an
  oracle `List Coord → Bool` indexed by the current DFS path.  A DFS
  visits each (step, path) node at most once, so any wall-clock behaviour
  is one such oracle.
* Recursion is fueled; callers pass fuel that the Python recursion depth
  never exceeds, and soundness statements hold for every fuel value.
-/

set_option linter.unusedVariables false

namespace Zip

/-- Coordinates: `(row, column)` pairs of integers, mirroring the source's
`Coord = Tuple[int, int]`. -/
abbrev Coord := Int × Int

/-- Python `d.get(key)` on a dict modeled as an association list. -/
def aget {α : Type} (d : List (Int × α)) (key : Int) : Option α :=
  (d.find? (fun p => p.1 == key)).map (fun p => p.2)

/-- Python dict assignment `d[key] = v`: any previous binding of `key` is
replaced. -/
def aset {α : Type} (d : List (Int × α)) (key : Int) (v : α) : List (Int × α) :=
  (d.filter (fun p => p.1 != key)) ++ [(key, v)]

/-- `d.keys()`. -/
def keysOf {α : Type} (d : List (Int × α)) : List Int :=
  d.map (fun p => p.1)

/-- Python truthiness of an `Optional[Dict]` (`if self.display_to_step:`):
`None` and the empty dict are falsy. -/
def dictTruthy {α : Type} : Option (List (Int × α)) → Bool
  | none => false
  | some d => !d.isEmpty

/-- Python truthiness of `dict.get(k)` (`if actual_step:`): falsy when the
key is absent (`None`) or bound to `0`. -/
def optTruthy : Option Int → Bool
  | none => false
  | some v => v != 0

/-- The `Board` dataclass from `core/board.py`: an n-by-n matrix of display
values (`0` = blank), the target length `k`, the adjacency mode, and the two
optional clue lookup tables. -/
structure Board where
  grid : List (List Int)
  k : Int
  diag : Bool := false
  display_to_step : Option (List (Int × Int)) := none
  step_to_display : Option (List (Int × Int)) := none
deriving Repr, DecidableEq

/-- `Board.in_bounds`, as a function of the side length `n` alone. -/
def inB (n : Nat) (r c : Int) : Bool :=
  decide (0 ≤ r) && decide (r < (n : Int)) && decide (0 ≤ c) && decide (c < (n : Int))

/-- `Board.n`: the side length is the number of grid rows. -/
def Board.n (b : Board) : Nat := b.grid.length

/-- `Board.in_bounds(r, c)`. -/
def Board.in_bounds (b : Board) (r c : Int) : Bool := inB b.n r c

/-- The move deltas used by `Board.neighbors` (and, inlined, by the
generator): 4-way plus the diagonal four when `diag` is set. -/
def deltas (diag : Bool) : List Coord :=
  [(-1, 0), (1, 0), (0, -1), (0, 1)] ++
    (if diag then [(-1, -1), (-1, 1), (1, -1), (1, 1)] else [])

/-- `Board.neighbors` as a function of the side length: the in-bounds cells
one delta away, in delta order. -/
def neighborsG (n : Nat) (r c : Int) (diag : Bool) : List Coord :=
  (deltas diag).filterMap (fun d =>
    if inB n (r + d.1) (c + d.2) then some (r + d.1, c + d.2) else none)

/-- `Board.neighbors(r, c, diag)` (call sites always resolve the `diag`
default before use). -/
def Board.neighbors (b : Board) (r c : Int) (diag : Bool) : List Coord :=
  neighborsG b.n r c diag

/-- `grid[r][c]`.  Every read in the embedded code is guarded by a bounds
check, so the indices are nonnegative and in range. -/
def gridValG (g : List (List Int)) (r c : Int) : Int :=
  (g.getD r.toNat []).getD c.toNat 0

/-- `board.grid[r][c]`. -/
def Board.gridVal (b : Board) (r c : Int) : Int := gridValG b.grid r c

/-- `Board.givens()`: scan the grid row-major; each truthy display value is
converted through `display_to_step` when that dict is truthy (dropping
values whose lookup is falsy), else taken as the step itself.  Returns the
dict actual step → coordinate. -/
def Board.givens (b : Board) : List (Int × Coord) :=
  (List.range b.n).foldl (fun m (r : Nat) =>
    (List.range b.n).foldl (fun m (c : Nat) =>
      let display_val := gridValG b.grid (r : Int) (c : Int)
      if display_val != 0 then
        if dictTruthy b.display_to_step then
          let actual_step := aget (b.display_to_step.getD []) display_val
          if optTruthy actual_step then
            aset m (actual_step.getD 0) ((r : Int), (c : Int))
          else m
        else aset m display_val ((r : Int), (c : Int))
      else m) m) []

/-- The scanning loop of `validate_path`: walks the path with index `i`,
previous cell `prev`, visited set `seen` and the `clue_positions` dict;
returns the first failure message, or the final dict. -/
def scanPath (g : List (List Int)) (d : Bool) :
    Nat → Option Coord → List Coord → List (Int × Int) → List Coord →
    Except String (List (Int × Int))
  | _, _, _, cluePos, [] => Except.ok cluePos
  | i, prev, seen, cluePos, cell :: rest =>
    if seen.contains cell then
      Except.error ("Cell " ++ toString (cell) ++ " repeated")
    else if !inB g.length cell.1 cell.2 then
      Except.error ("Cell " ++ toString (cell) ++ " out of bounds")
    else if (match prev with
             | some p => !(neighborsG g.length p.1 p.2 d).contains cell
             | none => false) then
      Except.error ("Step " ++ toString (i) ++ "->" ++ toString (i + 1) ++ " not adjacent")
    else
      let dv := gridValG g cell.1 cell.2
      scanPath g d (i + 1) (some cell) (cell :: seen)
        (if dv != 0 then aset cluePos dv ((i : Int) + 1) else cluePos) rest

/-- The ascending-order loop of `validate_path`: along the sorted clue
list, each clue's recorded position must strictly exceed its predecessor's. -/
def cluesAscending (cluePos : List (Int × Int)) : List Int → Bool
  | a :: b :: rest =>
    decide ((aget cluePos a).getD 0 < (aget cluePos b).getD 0) &&
      cluesAscending cluePos (b :: rest)
  | _ => true

/-- The consecutiveness loop of `validate_path`: the first index `i` with
`sorted_clues[i] != i + 1`, reported as the missing clue number `i + 1`. -/
def firstGap : Nat → List Int → Option Nat
  | _, [] => none
  | i, c :: rest => if c != (i : Int) + 1 then some (i + 1) else firstGap (i + 1) rest

/-- `validate_path`, as a function of the three board components it reads:
the grid, the target length `k` and the resolved adjacency mode. -/
def validateCore (g : List (List Int)) (k : Int) (diag : Bool) (path : List Coord) :
    Bool × String :=
  if ((path.length : Int) != k) then
    (false, "Expected " ++ toString (k) ++ " steps, got " ++ toString (path.length))
  else
    match scanPath g diag 0 none [] [] path with
    | Except.error msg => (false, msg)
    | Except.ok cluePos =>
      if !(keysOf cluePos).contains 1 then (false, "Must start at clue 1")
      else if ((aget cluePos 1).getD 0 != 1) then (false, "Clue 1 must be at the start")
      else
        let sorted_clues := List.insertionSort (fun a b => a ≤ b) (keysOf cluePos)
        if !cluesAscending cluePos sorted_clues then (false, "Clues out of order")
        else
          match firstGap 0 sorted_clues with
          | some j => (false, "Missing or skipped clue number " ++ toString (j))
          | none =>
            let highest_clue := sorted_clues.getLast?.getD 0
            let highest_pos := (aget cluePos highest_clue).getD 0
            if (highest_pos != (path.length : Int)) then
              (false, "Path must end at clue " ++ toString (highest_clue) ++
                ", not continue beyond it")
            else (true, "OK")

/-- `validate_path(board, path, diag=None)` from `core/board.py`.  The body
reads only `board.grid`, `board.k` and (to resolve the default) `board.diag`,
which the delegation to `validateCore` makes explicit. -/
def validate_path (board : Board) (path : List Coord) (diag : Option Bool := none) :
    Bool × String :=
  validateCore board.grid board.k (diag.getD board.diag) path

/-- State-passing form of `validate_path`, for the no-mutation claim: the
source function assigns to no attribute of `board` (it only reads them), so
the board coming out is the board that went in. -/
def validatePathS (board : Board) (path : List Coord) (diag : Option Bool) :
    (Bool × String) × Board :=
  (validate_path board path diag, board)

/-- `[(r, c) for r in range(n) for c in range(n)]`: the start-cell candidates
used by the solver and the counter when clue 1 has no coordinate. -/
def allCells (n : Nat) : List Coord :=
  ((List.range n).map (fun r => (List.range n).map (fun c => ((r : Int), (c : Int))))).flatten

/-- The clue-compatibility filter inlined in both DFS loops of
`core/solver.py`: a candidate cell is skipped iff its display value is
truthy and converts (through a truthy `display_to_step`, or else directly)
to a truthy actual step different from the current step. -/
def clueSkip (b : Board) (cell : Coord) (step : Int) : Bool :=
  let display_val := gridValG b.grid cell.1 cell.2
  if display_val != 0 then
    if dictTruthy b.display_to_step then
      let actual_step := aget (b.display_to_step.getD []) display_val
      optTruthy actual_step && (actual_step.getD 0 != step)
    else display_val != step
  else false

/-- `_ordered_neighbors`: unvisited neighbours, stably sorted by ascending
count of their own unvisited neighbours (Warnsdorff heuristic). -/
def _ordered_neighbors (b : Board) (cell : Coord) (used : List Coord) (diag : Bool) :
    List Coord :=
  List.insertionSort (fun a c =>
    ((b.neighbors a.1 a.2 diag).filter (fun x => !used.contains x)).length ≤
      ((b.neighbors c.1 c.2 diag).filter (fun x => !used.contains x)).length)
    ((b.neighbors cell.1 cell.2 diag).filter (fun nb => !used.contains nb))

/-- The recursive DFS inside `solve_backtracking`.  The source keeps `used`
equal to the set of `path` cells at all times, so the embedding carries only
`path`.  `timeUp` is the wall-clock read at entry; `fuel` bounds the
recursion depth (the Python recursion is bounded by `step` reaching `k+1`). -/
def solveDfs (b : Board) (diag : Bool) (giv : List (Int × Coord))
    (timeUp : List Coord → Bool) : Nat → Int → List Coord → Option (List Coord)
  | 0, _, _ => none
  | fuel + 1, step, path =>
    if timeUp path then none
    else if step > b.k then some path
    else
      let last := path.getLast?.getD (0, 0)
      let cands : List Coord :=
        match aget giv step with
        | some target =>
          if !path.contains target && (b.neighbors last.1 last.2 diag).contains target then
            [target]
          else []
        | none => _ordered_neighbors b last path diag
      cands.findSome? (fun cell =>
        if path.contains cell then none
        else if clueSkip b cell step then none
        else solveDfs b diag giv timeUp fuel (step + 1) (path ++ [cell]))

/-- `solve_backtracking(board, diag, time_limit)`: try each start, seeding
`path = [s]`, and run the DFS from step 2. -/
def solve_backtracking (b : Board) (diag : Bool) (timeUp : List Coord → Bool) :
    Option (List Coord) :=
  let giv := b.givens
  let starts : List Coord :=
    match aget giv 1 with
    | some s => [s]
    | none => allCells b.n
  starts.findSome? (fun s => solveDfs b diag giv timeUp (b.k.toNat + 2) 2 [s])

/-- The recursive DFS inside `count_solutions`: returns the stop flag
(`True` aborts the whole search) and the updated solution count.  On a
wall-clock expiry at entry it stops, keeping the count accumulated so far. -/
def countDfs (b : Board) (diag : Bool) (giv : List (Int × Coord)) (limit : Int)
    (timeUp : List Coord → Bool) : Nat → Int → List Coord → Int → Bool × Int
  | 0, _, _, count => (false, count)
  | fuel + 1, step, path, count =>
    if timeUp path then (true, count)
    else if step > b.k then (decide (count + 1 ≥ limit), count + 1)
    else
      let last := path.getLast?.getD (0, 0)
      let cands : List Coord :=
        match aget giv step with
        | some target =>
          if !path.contains target && (b.neighbors last.1 last.2 diag).contains target then
            [target]
          else []
        | none => _ordered_neighbors b last path diag
      cands.foldl (fun acc cell =>
        if acc.1 then acc
        else if path.contains cell then acc
        else if clueSkip b cell step then acc
        else countDfs b diag giv limit timeUp fuel (step + 1) (path ++ [cell]) acc.2)
        (false, count)

/-- `count_solutions(board, diag, limit, time_limit)`: the count persists
across start cells; the loop breaks once a DFS signals stop or the count
reaches the limit. -/
def count_solutions (b : Board) (diag : Bool) (limit : Int) (timeUp : List Coord → Bool) :
    Int :=
  let giv := b.givens
  let starts : List Coord :=
    match aget giv 1 with
    | some s => [s]
    | none => allCells b.n
  (starts.foldl (fun acc s =>
    if acc.1 then acc
    else
      let r := countDfs b diag giv limit timeUp (b.k.toNat + 2) 2 [s] acc.2
      if r.1 || decide (r.2 ≥ limit) then (true, r.2) else (false, r.2)) (false, 0)).2

/-- `onward_degree` from `_random_saw_cover_all`: the number of in-bounds
unvisited cells one move away. -/
def onward_degree (n : Nat) (diag : Bool) (used : List Coord) (cell : Coord) : Nat :=
  ((deltas diag).filter (fun d =>
    inB n (cell.1 + d.1) (cell.2 + d.2) && !used.contains (cell.1 + d.1, cell.2 + d.2))).length

/-- The `neighbors` helper of `_random_saw_cover_all`: in-bounds unvisited
neighbours, shuffled (`random.shuffle`, modeled by the state-indexed oracle
`shuffle`) then stably sorted by ascending onward degree. -/
def sawNeighbors (n : Nat) (diag : Bool) (shuffle : List Coord → List Coord → List Coord)
    (path : List Coord) (r c : Int) : List Coord :=
  let used := path
  List.insertionSort (fun a b =>
    onward_degree n diag used a ≤ onward_degree n diag used b)
    (shuffle path ((deltas diag).filterMap (fun d =>
      if inB n (r + d.1) (c + d.2) && !used.contains (r + d.1, c + d.2) then
        some (r + d.1, c + d.2)
      else none)))

/-- The recursive DFS inside `_random_saw_cover_all`.  The source body reads
no clock whatsoever; the ambient wall clock is still passed (as `clock`) so
that independence from it can be stated, and the body — like the source —
never consults it. -/
def sawDfs (n : Nat) (diag : Bool) (shuffle : List Coord → List Coord → List Coord)
    (clock : List Coord → Bool) : Nat → List Coord → Option (List Coord)
  | 0, _ => none
  | fuel + 1, path =>
    if path.length == n * n then some path
    else
      let last := path.getLast?.getD (0, 0)
      (sawNeighbors n diag shuffle path last.1 last.2).findSome? (fun nb =>
        sawDfs n diag shuffle clock fuel (path ++ [nb]))

/-- `_random_saw_cover_all(n, diag)`: `start` stands for
`random.choice(cells)`; the DFS grows `path` from `[start]`. -/
def _random_saw_cover_all (n : Nat) (diag : Bool) (start : Coord)
    (shuffle : List Coord → List Coord → List Coord) (clock : List Coord → Bool) :
    Option (List Coord) :=
  sawDfs n diag shuffle clock (n * n + 1) [start]

/-- `grid[r][c] = v`; the generator only writes in-bounds coordinates. -/
def setCell (g : List (List Int)) (r c : Int) (v : Int) : List (List Int) :=
  g.set r.toNat ((g.getD r.toNat []).set c.toNat v)

/-- `_grid_with_clues_from_path`: an all-zero n-by-n grid with the step
number written at every path cell whose 1-based step is a clue index. -/
def _grid_with_clues_from_path (n : Nat) (path : List Coord) (clue_indices : List Int) :
    List (List Int) :=
  path.enum.foldl (fun g p =>
    if clue_indices.contains ((p.1 : Int) + 1) then
      setCell g p.2.1 p.2.2 ((p.1 : Int) + 1)
    else g) (List.replicate n (List.replicate n 0))

/-- `_create_display_grid`: `mapping = {actual: i + 1}` over the sorted clue
indices — keys are the actual steps, values the dense display numbers — and
the display grid replaces each mapped grid value by its display number. -/
def _create_display_grid (g : List (List Int)) (clue_indices : List Int) :
    List (List Int) × List (Int × Int) :=
  let mapping : List (Int × Int) :=
    (List.insertionSort (fun a b => a ≤ b) clue_indices).enum.map
      (fun p => (p.2, (p.1 : Int) + 1))
  ((List.range g.length).map (fun r : Nat => (List.range g.length).map (fun c : Nat =>
    match aget mapping (gridValG g (r : Int) (c : Int)) with
    | some dv => dv
    | none => 0)), mapping)

/-- `config.get_clue_bounds(n)`: `(max(4, n), min(n*n, n+8))`. -/
def get_clue_bounds (n : Nat) : Int × Int :=
  (max 4 (n : Int), min ((n : Int) * n) ((n : Int) + 8))

/-- The configuration read by the generator.  `CLUE_START` is *not* defined
in `config/config.py`; callers inject it as a module attribute (`main.py`
sets `max(6, n // 2)`, the test scripts set `get_clue_bounds` values), so it
is a required ambient input here. -/
structure GenConfig where
  MAX_GEN_ATTEMPTS : Nat := 40
  FAST_MODE : Bool := true
  FAST_MODE_THRESHOLD : Nat := 10
  CLUE_START : Int

/-- The random and wall-clock inputs of one `generate_unique_puzzle` call,
indexed by attempt number (and, for the uniqueness clock, by densification
round and DFS node). -/
structure GenOracles where
  startCell : Nat → Coord
  sawShuffle : Nat → List Coord → List Coord → List Coord
  extrasShuffle : Nat → List Int → List Int
  moreShuffle : Nat → List Int → List Int
  countClock : Nat → Nat → List Coord → Bool

/-- `list(range(a, b))`. -/
def intRange (a b : Int) : List Int :=
  (List.range (b - a).toNat).map (fun i : Nat => a + (i : Int))

/-- Python set insertion `s.add(x)` on a set modeled as a duplicate-free
list. -/
def sinsert (s : List Int) (x : Int) : List Int :=
  if s.contains x then s else s ++ [x]

/-- Python list slice `l[:m]`, negative-bound semantics included. -/
def pyTake {α : Type} (m : Int) (l : List α) : List α :=
  if 0 ≤ m then l.take m.toNat else l.take (l.length - (-m).toNat)

/-- The attempt loop of `_generate_puzzle_fast`: the initial clue count
comes from `get_clue_bounds(n)` and no uniqueness check is run. -/
def _generate_puzzle_fast_go (n : Nat) (diag : Bool) (orc : GenOracles) :
    Nat → Nat → Option (List (List Int) × List Coord × List (Int × Int))
  | 0, _ => none
  | fuel + 1, attempt =>
    match _random_saw_cover_all n diag (orc.startCell attempt) (orc.sawShuffle attempt)
        (fun _ => false) with
    | none => _generate_puzzle_fast_go n diag orc fuel (attempt + 1)
    | some path =>
      let k : Int := (n : Int) * n
      let clue_set := sinsert (sinsert [] 1) k
      let extras := orc.extrasShuffle attempt (intRange 2 k)
      let bounds := get_clue_bounds n
      let clue_set := (pyTake (bounds.1 - 2) extras).foldl sinsert clue_set
      let grid := _grid_with_clues_from_path n path clue_set
      let dg := _create_display_grid grid clue_set
      some (dg.1, path, dg.2)

/-- `_generate_puzzle_fast(n, diag)`. -/
def _generate_puzzle_fast (n : Nat) (diag : Bool) (cfg : GenConfig) (orc : GenOracles) :
    Option (List (List Int) × List Coord × List (Int × Int)) :=
  _generate_puzzle_fast_go n diag orc cfg.MAX_GEN_ATTEMPTS 0

/-- The inner `while True` densification loop of `generate_unique_puzzle`:
count solutions for the current clue set; accept on a count of exactly 1;
give up (continue the outer attempt loop) when the clue budget or the
candidate pool is exhausted; otherwise add `more.pop()` and go round again.
Each round removes one element of `more`, so `more.length + 1` fuel is
enough. -/
def densify (n : Nat) (diag : Bool) (k : Int) (path : List Coord) (max_clues : Int)
    (clock : Nat → List Coord → Bool) :
    Nat → List Int → List Int → Nat →
    Option (List (List Int) × List Coord × List (Int × Int))
  | 0, _, _, _ => none
  | fuel + 1, clue_set, more, round =>
    let grid := _grid_with_clues_from_path n path clue_set
    let board : Board := ⟨grid, k, diag, none, none⟩
    let count := count_solutions board diag 2 (clock round)
    if count == 1 then
      let dg := _create_display_grid grid clue_set
      some (dg.1, path, dg.2)
    else if decide ((clue_set.length : Int) ≥ max_clues) || more.isEmpty then none
    else
      densify n diag k path max_clues clock fuel
        (sinsert clue_set (more.getLast?.getD 0)) more.dropLast (round + 1)

/-- The attempt loop of `generate_unique_puzzle` (non-fast mode).  Note the
initial clue count uses the injected `CLUE_START`, not the `start_clues`
bound computed from `get_clue_bounds` on the line above it in the source. -/
def genAttempts (n : Nat) (diag : Bool) (cfg : GenConfig) (orc : GenOracles) :
    Nat → Nat → Option (List (List Int) × List Coord × List (Int × Int))
  | 0, _ => none
  | fuel + 1, attempt =>
    match _random_saw_cover_all n diag (orc.startCell attempt) (orc.sawShuffle attempt)
        (fun _ => false) with
    | none => genAttempts n diag cfg orc fuel (attempt + 1)
    | some path =>
      let k : Int := (n : Int) * n
      let bounds := get_clue_bounds n
      let clue_set := sinsert (sinsert [] 1) k
      let extras := orc.extrasShuffle attempt (intRange 2 k)
      let clue_set := (pyTake (cfg.CLUE_START - 2) extras).foldl sinsert clue_set
      let more := orc.moreShuffle attempt
        ((intRange 2 k).filter (fun i => !clue_set.contains i))
      match densify n diag k path bounds.2 (orc.countClock attempt) (more.length + 1)
          clue_set more 0 with
      | some res => some res
      | none => genAttempts n diag cfg orc fuel (attempt + 1)

/-- `generate_unique_puzzle(n, diag)`: fast mode for large boards when
enabled, else the unique-puzzle attempt loop.  A `none` result models the
`RuntimeError` raised when the attempt budget is exhausted. -/
def generate_unique_puzzle (n : Nat) (diag : Bool) (cfg : GenConfig) (orc : GenOracles) :
    Option (List (List Int) × List Coord × List (Int × Int)) :=
  if cfg.FAST_MODE && decide (n ≥ cfg.FAST_MODE_THRESHOLD) then
    _generate_puzzle_fast n diag cfg orc
  else genAttempts n diag cfg orc cfg.MAX_GEN_ATTEMPTS 0

/-- Degenerate randomness: always start at the origin and leave every list
in its given order; the uniqueness clock never expires. -/
def idOracles : GenOracles :=
  ⟨fun _ => (0, 0), fun _ _ l => l, fun _ l => l, fun _ l => l, fun _ _ _ => false⟩

/-- The `clue_positions` effect of the scanning loop of `validate_path`, in
isolation: fold the path from index `i`, recording each truthy display value
at position `i + 1`. -/
def recordClues (g : List (List Int)) : Nat → List (Int × Int) → List Coord → List (Int × Int)
  | _, cp, [] => cp
  | i, cp, cell :: rest =>
    recordClues g (i + 1)
      (if gridValG g cell.1 cell.2 != 0 then aset cp (gridValG g cell.1 cell.2) ((i : Int) + 1)
       else cp) rest

/-- The canonical `clue_positions` dict: display values `ρ+1, ρ+2, ...`
bound to the positions listed in `ts`. -/
def canonFrom : Nat → List Nat → List (Int × Int)
  | _, [] => []
  | ρ, t :: ts => (((ρ : Nat) : Int) + 1, (t : Int)) :: canonFrom (ρ + 1) ts

/-- The board with the display value at `cell` blanked out. -/
def zeroCell (b : Board) (cell : Coord) : Board :=
  ⟨setCell b.grid cell.1 cell.2 0, b.k, b.diag, b.display_to_step, b.step_to_display⟩

/-- The row-major cell enumeration of the `givens` double loop, with `Nat`
coordinates. -/
def pairsN (n : Nat) : List (Nat × Nat) :=
  ((List.range n).map (fun r => (List.range n).map (fun c => (r, c)))).flatten

/-- One iteration of the `givens` scanning loop, at the cell `rc`. -/
def givStep (b : Board) (m : List (Int × Coord)) (rc : Nat × Nat) : List (Int × Coord) :=
  let display_val := gridValG b.grid (rc.1 : Int) (rc.2 : Int)
  if display_val != 0 then
    if dictTruthy b.display_to_step then
      let actual_step := aget (b.display_to_step.getD []) display_val
      if optTruthy actual_step then
        aset m (actual_step.getD 0) ((rc.1 : Int), (rc.2 : Int))
      else m
    else aset m display_val ((rc.1 : Int), (rc.2 : Int))
  else m

/-- The documented `Board` invariant, parametrized by the clue count `C`,
the true-step table `stp` and the location table `cell`: the grid's positive
display values are exactly `1..C`, each at the single cell `cell d`, and the
truthy `display_to_step` dict maps each display `d` to the positive true
step `stp d`, in ascending order. -/
structure ClueInvariant (b : Board) (C : Nat) (stp : Nat → Int) (cell : Nat → Coord) : Prop where
  truthy : dictTruthy b.display_to_step = true
  cellOk : ∀ d, 1 ≤ d → d ≤ C → inB b.n (cell d).1 (cell d).2 = true ∧
    gridValG b.grid (cell d).1 (cell d).2 = (d : Int)
  gridOk : ∀ r c : Int, inB b.n r c = true → gridValG b.grid r c = 0 ∨
    ∃ d, 1 ≤ d ∧ d ≤ C ∧ gridValG b.grid r c = (d : Int) ∧ (r, c) = cell d
  mapOk : ∀ d, 1 ≤ d → d ≤ C →
    aget (b.display_to_step.getD []) (d : Int) = some (stp d) ∧ 1 ≤ stp d
  mono : ∀ d e, 1 ≤ d → d < e → e ≤ C → stp d < stp e

/-- One write of the `_grid_with_clues_from_path` loop. -/
def clueWrite (S : List Int) (g : List (List Int)) (p : Nat × Coord) : List (List Int) :=
  if S.contains ((p.1 : Int) + 1) then setCell g p.2.1 p.2.2 ((p.1 : Int) + 1) else g

/-! ### General-purpose lemmas -/

theorem findSome?_ext {α β : Type} {f g : α → Option β} (h : ∀ a, f a = g a) :
    ∀ l : List α, l.findSome? f = l.findSome? g
  | [] => rfl
  | a :: l => by
    simp only [List.findSome?_cons, h a]
    cases g a with
    | none => exact findSome?_ext h l
    | some b => rfl

theorem firstGap_eq_none_iff (l : List Int) : ∀ i : Nat,
    firstGap i l = none ↔ l = (List.range l.length).map (fun t => ((i + t : Nat) : Int) + 1) := by
  induction l with
  | nil => intro i; simp [firstGap]
  | cons c rest ih =>
    intro i
    by_cases h : c = (i : Int) + 1
    · subst h
      have hfn : ∀ t : Nat, ((i + Nat.succ t : Nat) : Int) + 1 = (((i + 1) + t : Nat) : Int) + 1 := by
        intro t
        rw [show i + Nat.succ t = i + 1 + t from by omega]
      simp only [firstGap, bne_self_eq_false, Bool.false_eq_true, if_false, List.length_cons,
        List.range_succ_eq_map, List.map_cons, List.map_map, Nat.add_zero,
        Function.comp_def, hfn, ih (i + 1), List.cons.injEq, true_and]
    · have hb : (c != (i : Int) + 1) = true := by simpa using h
      simp only [firstGap, hb, if_true, List.length_cons, List.range_succ_eq_map,
        List.map_cons, List.map_map, Nat.add_zero, Function.comp_def, List.cons.injEq]
      constructor
      · intro hx; exact absurd hx (by simp)
      · rintro ⟨h1, -⟩; exact absurd h1 h

/-- `firstGap` from index 0 succeeds exactly on the list `[1, 2, ..., m]`. -/
theorem firstGap_zero_eq_none_iff (l : List Int) :
    firstGap 0 l = none ↔ l = (List.range l.length).map (fun t : Nat => (t : Int) + 1) := by
  rw [firstGap_eq_none_iff]
  simp only [Nat.zero_add]

/-- Helper for claim C4: the SAW generator DFS never consults the ambient
clock — its body (like the source) contains no deadline read, so its result
is the same under any two clocks. -/
theorem sawDfs_clock_irrelevant (n : Nat) (diag : Bool)
    (shuffle : List Coord → List Coord → List Coord) (c₁ c₂ : List Coord → Bool)
    (fuel : Nat) : ∀ path : List Coord,
    sawDfs n diag shuffle c₁ fuel path = sawDfs n diag shuffle c₂ fuel path := by
  induction fuel with
  | zero => intro path; rfl
  | succ fuel ih =>
    intro path
    simp only [sawDfs]
    by_cases hl : (path.length == n * n) = true
    · simp only [hl, if_true]
    · simp only [hl, Bool.false_eq_true, if_false]
      exact findSome?_ext (fun nb => ih (path ++ [nb])) _

/-! ### The validator on well-formed clue layouts

`recordClues` is the pure clue-recording effect of the scanning loop;
`canonFrom ρ ts` is the `clue_positions` dict produced by a path whose
clues, in path order, carry the display values `ρ+1, ρ+2, ...` at the
1-based path positions listed in `ts`. -/

/-- If the remaining path cells are fresh, in bounds and chained to the
previous cell, the scanning loop succeeds and returns exactly the recorded
clue positions. -/
theorem scanPath_ok (g : List (List Int)) (d : Bool) :
    ∀ (p : List Coord) (i : Nat) (prev : Option Coord) (seen : List Coord)
      (cp : List (Int × Int)),
      p.Nodup → (∀ c ∈ p, c ∉ seen) → (∀ c ∈ p, inB g.length c.1 c.2 = true) →
      List.Chain' (fun a c => (neighborsG g.length a.1 a.2 d).contains c = true)
        (prev.toList ++ p) →
      scanPath g d i prev seen cp p = Except.ok (recordClues g i cp p)
  | [], _, _, _, _, _, _, _, _ => rfl
  | cell :: rest, i, prev, seen, cp, hnd, hdj, hb, hch => by
    have hs : seen.contains cell = false := by
      simpa using hdj cell (List.mem_cons_self _ _)
    have hib : inB g.length cell.1 cell.2 = true := hb cell (List.mem_cons_self _ _)
    have htail : List.Chain' (fun a c => (neighborsG g.length a.1 a.2 d).contains c = true)
        ((some cell).toList ++ rest) := by
      cases prev with
      | none => exact hch
      | some q => exact hch.tail
    have hrest := scanPath_ok g d rest (i + 1) (some cell) (cell :: seen)
      (if gridValG g cell.1 cell.2 != 0 then aset cp (gridValG g cell.1 cell.2) ((i : Int) + 1)
       else cp)
      hnd.of_cons
      (fun c hc => by
        have h1 : c ≠ cell := fun he => (List.nodup_cons.mp hnd).1 (he ▸ hc)
        have h2 : c ∉ seen := hdj c (List.mem_cons_of_mem _ hc)
        simp [h1, h2])
      (fun c hc => hb c (List.mem_cons_of_mem _ hc))
      htail
    cases prev with
    | none =>
      simp only [scanPath, hs, Bool.false_eq_true, if_false, hib, Bool.not_true, recordClues]
      exact hrest
    | some q =>
      have hcont : (neighborsG g.length q.1 q.2 d).contains cell = true := by
        have h2 : List.Chain' (fun a c => (neighborsG g.length a.1 a.2 d).contains c = true)
            (q :: cell :: rest) := hch
        exact (List.chain'_cons.mp h2).1
      simp only [scanPath, hs, Bool.false_eq_true, if_false, hib, Bool.not_true, hcont,
        recordClues]
      exact hrest

theorem getD_mem_of_lt {α : Type} (l : List α) (d : α) (j : Nat) (h : j < l.length) :
    l.getD j d ∈ l := by
  induction l generalizing j with
  | nil => simp at h
  | cons a l ih =>
    cases j with
    | zero => simp
    | succ j =>
      simp only [List.getD_cons_succ]
      exact List.mem_cons_of_mem _ (ih j (by simpa using Nat.lt_of_succ_lt_succ h))

/-- The clue-recording loop on a path carrying the display values `ρ+1,
ρ+2, ...` exactly at the 1-based positions `ts` (relative to the whole walk;
the current cell is at index `i`) appends the canonical dict. -/
theorem recordClues_spec (g : List (List Int)) :
    ∀ (p : List Coord) (ts : List Nat) (i ρ : Nat) (cp : List (Int × Int)),
      (∀ q ∈ cp, ∀ j, j < ts.length → q.1 ≠ ((ρ + j : Nat) : Int) + 1) →
      (∀ x ∈ ts, i + 1 ≤ x) →
      (∀ x ∈ ts, x ≤ i + p.length) →
      ts.Pairwise (· < ·) →
      (∀ j, j < ts.length →
        gridValG g ((p.getD (ts.getD j 0 - 1 - i) (0, 0)).1)
          ((p.getD (ts.getD j 0 - 1 - i) (0, 0)).2) = ((ρ + j : Nat) : Int) + 1) →
      (∀ m, m < p.length → (i + m + 1) ∉ ts →
        gridValG g ((p.getD m (0, 0)).1) ((p.getD m (0, 0)).2) = 0) →
      recordClues g i cp p = cp ++ canonFrom ρ ts := by
  intro p
  induction p with
  | nil =>
    intro ts i ρ cp hfresh hlb hub hsort hclue hblank
    cases ts with
    | nil => simp [recordClues, canonFrom]
    | cons t ts' =>
      exfalso
      have h1 := hlb t (List.mem_cons_self _ _)
      have h2 := hub t (List.mem_cons_self _ _)
      simp only [List.length_nil, Nat.add_zero] at h2
      omega
  | cons cell rest ih =>
    intro ts i ρ cp hfresh hlb hub hsort hclue hblank
    cases ts with
    | nil =>
      have h0 : gridValG g cell.1 cell.2 = 0 := by
        have h := hblank 0 (by simp) (by simp)
        simpa using h
      simp only [recordClues, h0, bne_self_eq_false, Bool.false_eq_true, if_false]
      have h := ih [] (i + 1) ρ cp (by intro q hq j hj; simp at hj) (by simp) (by simp)
        (by simp) (by intro j hj; simp at hj)
        (fun m hm _ => by
          have h2 := hblank (m + 1) (by simpa using Nat.succ_lt_succ hm) (by simp)
          simpa using h2)
      simpa [canonFrom] using h
    | cons t ts' =>
      have hrest_lt : ∀ x ∈ ts', t < x := fun x hx => List.rel_of_pairwise_cons hsort hx
      by_cases ht : t = i + 1
      · have hv : gridValG g cell.1 cell.2 = ((ρ : Nat) : Int) + 1 := by
          have h := hclue 0 (by simp)
          have hidx : (t :: ts').getD 0 0 - 1 - i = 0 := by
            simp only [List.getD_cons_zero]; omega
          rw [hidx] at h
          simpa using h
        have hcond : ((gridValG g cell.1 cell.2) != 0) = true := by
          rw [hv]
          simp only [bne_iff_ne, ne_eq]
          intro hzero
          omega
        have hkey : aset cp (gridValG g cell.1 cell.2) ((i : Int) + 1) =
            cp ++ [(((ρ : Nat) : Int) + 1, ((i : Nat) : Int) + 1)] := by
          rw [hv]
          unfold aset
          rw [List.filter_eq_self.mpr (fun q hq => by
            have h := hfresh q hq 0 (by simp)
            simpa using h)]
        have hfresh2 : ∀ q ∈ cp ++ [(((ρ : Nat) : Int) + 1, ((i : Nat) : Int) + 1)],
            ∀ j, j < ts'.length → q.1 ≠ (((ρ + 1) + j : Nat) : Int) + 1 := by
          intro q hq j hj
          rcases List.mem_append.mp hq with hcp | hnew
          · have h := hfresh q hcp (j + 1) (by simpa using Nat.succ_lt_succ hj)
            have harith : ρ + 1 + j = ρ + (j + 1) := by omega
            rw [harith]
            exact h
          · have hq2 : q = (((ρ : Nat) : Int) + 1, ((i : Nat) : Int) + 1) := by
              simpa using hnew
            rw [hq2]
            intro heq
            simp only at heq
            push_cast at heq
            omega
        have hall2 : ∀ x ∈ ts', i + 2 ≤ x := fun x hx => by
          have := hrest_lt x hx; omega
        have hclue2 : ∀ j, j < ts'.length →
            gridValG g ((rest.getD (ts'.getD j 0 - 1 - (i + 1)) (0, 0)).1)
              ((rest.getD (ts'.getD j 0 - 1 - (i + 1)) (0, 0)).2) =
              (((ρ + 1) + j : Nat) : Int) + 1 := by
          intro j hj
          have hx := hclue (j + 1) (by simpa using Nat.succ_lt_succ hj)
          simp only [List.getD_cons_succ] at hx
          have hxlb : i + 2 ≤ ts'.getD j 0 :=
            hall2 _ (getD_mem_of_lt ts' 0 j hj)
          have hidx : ts'.getD j 0 - 1 - i = (ts'.getD j 0 - 1 - (i + 1)) + 1 := by omega
          rw [hidx, List.getD_cons_succ] at hx
          have harith : ρ + (j + 1) = (ρ + 1) + j := by omega
          rw [harith] at hx
          exact hx
        have hblank2 : ∀ m, m < rest.length → ((i + 1) + m + 1) ∉ ts' →
            gridValG g ((rest.getD m (0, 0)).1) ((rest.getD m (0, 0)).2) = 0 := by
          intro m hm hnot
          have h := hblank (m + 1) (by simpa using Nat.succ_lt_succ hm) (by
            intro hmem
            rcases List.mem_cons.mp hmem with he | hm2
            · omega
            · exact hnot (by
                have harith : (i + 1) + m + 1 = i + (m + 1) + 1 := by omega
                rw [harith]
                exact hm2))
          simpa using h
        have hmain := ih ts' (i + 1) (ρ + 1)
          (cp ++ [(((ρ : Nat) : Int) + 1, ((i : Nat) : Int) + 1)])
          hfresh2
          (fun x hx => by have := hall2 x hx; omega)
          (fun x hx => by
            have h := hub x (List.mem_cons_of_mem _ hx)
            simp only [List.length_cons] at h
            omega)
          hsort.of_cons hclue2 hblank2
        simp only [recordClues, hcond, if_true, hkey, hmain, canonFrom, List.append_assoc,
          List.singleton_append, List.cons_append, List.nil_append]
        rw [ht]
        push_cast
        ring_nf
      · have hget2 : i + 2 ≤ t := by
          have := hlb t (List.mem_cons_self _ _); omega
        have hall2 : ∀ x ∈ t :: ts', i + 2 ≤ x := by
          intro x hx
          rcases List.mem_cons.mp hx with he | hm2
          · omega
          · have := hrest_lt _ hm2; omega
        have h0 : gridValG g cell.1 cell.2 = 0 := by
          have h := hblank 0 (by simp) (by
            intro hmem
            have := hall2 _ hmem
            omega)
          simpa using h
        simp only [recordClues, h0, bne_self_eq_false, Bool.false_eq_true, if_false]
        apply ih (t :: ts') (i + 1) ρ cp hfresh
          (fun x hx => by have := hall2 x hx; omega)
          (fun x hx => by
            have h := hub x hx
            simp only [List.length_cons] at h
            omega)
          hsort
          (by
            intro j hj
            have hx := hclue j hj
            have hxlb : i + 2 ≤ (t :: ts').getD j 0 :=
              hall2 _ (getD_mem_of_lt _ 0 j hj)
            have hidx : (t :: ts').getD j 0 - 1 - i =
                ((t :: ts').getD j 0 - 1 - (i + 1)) + 1 := by omega
            rw [hidx, List.getD_cons_succ] at hx
            exact hx)
          (by
            intro m hm hnot
            have h := hblank (m + 1) (by simpa using Nat.succ_lt_succ hm) (by
              intro hmem
              exact hnot (by
                have harith : (i + 1) + m + 1 = i + (m + 1) + 1 := by omega
                rw [harith]
                exact hmem))
            simpa using h)

theorem aget_cons_self {α : Type} (k : Int) (v : α) (rest : List (Int × α)) :
    aget ((k, v) :: rest) k = some v := by
  unfold aget
  rw [List.find?_cons]
  simp

theorem aget_cons_ne {α : Type} (k' : Int) (v : α) (rest : List (Int × α)) (k : Int)
    (h : k' ≠ k) : aget ((k', v) :: rest) k = aget rest k := by
  unfold aget
  rw [List.find?_cons]
  have hb : (((k', v) : Int × α).1 == k) = false := by simpa using h
  simp [hb]

theorem aget_canonFrom : ∀ (ts : List Nat) (ρ j : Nat), j < ts.length →
    aget (canonFrom ρ ts) (((ρ + j : Nat) : Int) + 1) = some ((ts.getD j 0 : Nat) : Int)
  | [], _, j, h => absurd h (by simp)
  | t :: ts', ρ, 0, _ => by
    rw [canonFrom, show ρ + 0 = ρ from rfl, aget_cons_self, List.getD_cons_zero]
  | t :: ts', ρ, j + 1, h => by
    rw [canonFrom, aget_cons_ne _ _ _ _ (by
      intro heq
      push_cast at heq
      omega)]
    rw [show ρ + (j + 1) = (ρ + 1) + j from by omega, List.getD_cons_succ]
    exact aget_canonFrom ts' (ρ + 1) j (by simpa using Nat.lt_of_succ_lt_succ h)

theorem key_lb_canonFrom : ∀ (ts : List Nat) (ρ : Nat) (x : Int),
    x ∈ keysOf (canonFrom ρ ts) → ((ρ : Nat) : Int) + 1 ≤ x
  | [], _, x, h => absurd h (by simp [canonFrom, keysOf])
  | t :: ts', ρ, x, h => by
    simp only [canonFrom, keysOf, List.map_cons, List.mem_cons] at h
    rcases h with he | hm
    · omega
    · have h2 := key_lb_canonFrom ts' (ρ + 1) x (by simpa [keysOf] using hm)
      push_cast at h2 ⊢
      omega

theorem keys_sorted_canonFrom : ∀ (ts : List Nat) (ρ : Nat),
    List.Sorted (fun a b => a ≤ b) (keysOf (canonFrom ρ ts))
  | [], _ => by simp [canonFrom, keysOf]
  | t :: ts', ρ => by
    simp only [canonFrom, keysOf, List.map_cons]
    refine List.sorted_cons.mpr ⟨?_, ?_⟩
    · intro b hb
      have h := key_lb_canonFrom ts' (ρ + 1) b (by simpa [keysOf] using hb)
      push_cast at h ⊢
      omega
    · exact keys_sorted_canonFrom ts' (ρ + 1)

theorem firstGap_canonFrom : ∀ (ts : List Nat) (ρ : Nat),
    firstGap ρ (keysOf (canonFrom ρ ts)) = none
  | [], _ => rfl
  | t :: ts', ρ => by
    simp only [canonFrom, keysOf, List.map_cons, firstGap, bne_self_eq_false,
      Bool.false_eq_true, if_false]
    exact firstGap_canonFrom ts' (ρ + 1)

theorem cluesAscending_canon : ∀ (ts : List Nat) (ρ : Nat) (cp : List (Int × Int)),
    (∀ j, j < ts.length → aget cp (((ρ + j : Nat) : Int) + 1) = some ((ts.getD j 0 : Nat) : Int)) →
    ts.Pairwise (· < ·) →
    cluesAscending cp (keysOf (canonFrom ρ ts)) = true
  | [], _, _, _, _ => rfl
  | [t], _, _, _, _ => rfl
  | t₁ :: t₂ :: ts', ρ, cp, hlook, hsort => by
    have h0 := hlook 0 (by simp)
    have h1 := hlook 1 (by simp)
    simp only [List.getD_cons_zero, List.getD_cons_succ, Nat.add_zero] at h0 h1
    have hlt : t₁ < t₂ := List.rel_of_pairwise_cons hsort (List.mem_cons_self _ _)
    have hrec := cluesAscending_canon (t₂ :: ts') (ρ + 1) cp
      (fun j hj => by
        have h := hlook (j + 1) (by simpa using Nat.succ_lt_succ hj)
        have harith : ρ + (j + 1) = (ρ + 1) + j := by omega
        rw [harith] at h
        simpa using h)
      hsort.of_cons
    simp only [canonFrom, keysOf, List.map_cons] at hrec ⊢
    rw [cluesAscending, h0, h1]
    simp only [Option.getD_some, hrec, Bool.and_true]
    simpa using hlt

theorem keys_getLast_canonFrom : ∀ (ts : List Nat) (ρ : Nat), ts ≠ [] →
    (keysOf (canonFrom ρ ts)).getLast?.getD 0 = ((ρ + (ts.length - 1) : Nat) : Int) + 1
  | [], _, h => absurd rfl h
  | [t], ρ, _ => by simp [canonFrom, keysOf]
  | t₁ :: t₂ :: ts', ρ, _ => by
    have h := keys_getLast_canonFrom (t₂ :: ts') (ρ + 1) (by simp)
    simp only [canonFrom, keysOf, List.map_cons] at h ⊢
    rw [List.getLast?_cons_cons]
    rw [h]
    congr 2
    simp only [List.length_cons]
    omega

theorem getD_last_eq_getLast : ∀ (l : List Nat), l ≠ [] →
    l.getD (l.length - 1) 0 = l.getLast?.getD 0
  | [], h => absurd rfl h
  | [t], _ => by simp
  | t₁ :: t₂ :: l', _ => by
    have h := getD_last_eq_getLast (t₂ :: l') (by simp)
    rw [List.getLast?_cons_cons]
    rw [← h]
    simp only [List.length_cons]
    rw [show t₂ :: l' = (t₂ :: l') from rfl]
    have : (l'.length + 1 + 1) - 1 = (l'.length + 1 - 1) + 1 := by omega
    rw [this, List.getD_cons_succ]

/-- The core acceptance lemma: a full-length, duplicate-free, in-bounds,
adjacency-chained path whose display values are `1..C` in order at the
strictly increasing 1-based positions `ts` (starting at position 1, ending
at the final position) and `0` everywhere else is accepted by the
validator. -/
theorem validateCore_accepts (g : List (List Int)) (k : Int) (d : Bool) (p : List Coord)
    (ts : List Nat)
    (hlen : (p.length : Int) = k)
    (hnodup : p.Nodup)
    (hbounds : ∀ c ∈ p, inB g.length c.1 c.2 = true)
    (hchain : List.Chain' (fun a c => (neighborsG g.length a.1 a.2 d).contains c = true) p)
    (hC : ts ≠ [])
    (hsort : ts.Pairwise (· < ·))
    (hub : ∀ x ∈ ts, x ≤ p.length)
    (hfirst : ts.getD 0 0 = 1)
    (hlast : ts.getLast?.getD 0 = p.length)
    (hclue : ∀ j, j < ts.length →
      gridValG g ((p.getD (ts.getD j 0 - 1) (0, 0)).1)
        ((p.getD (ts.getD j 0 - 1) (0, 0)).2) = ((j : Nat) : Int) + 1)
    (hblank : ∀ m, m < p.length → (m + 1) ∉ ts →
      gridValG g ((p.getD m (0, 0)).1) ((p.getD m (0, 0)).2) = 0) :
    validateCore g k d p = (true, "OK") := by
  obtain ⟨t0, ts', hts⟩ : ∃ t0 ts', ts = t0 :: ts' := by
    cases ts with
    | nil => exact absurd rfl hC
    | cons a l => exact ⟨a, l, rfl⟩
  have ht0 : t0 = 1 := by
    rw [hts] at hfirst
    simpa using hfirst
  have hlb : ∀ x ∈ ts, 0 + 1 ≤ x := by
    intro x hx
    rw [hts] at hx hsort
    rcases List.mem_cons.mp hx with he | hm
    · omega
    · have := List.rel_of_pairwise_cons hsort hm
      omega
  have hscan : scanPath g d 0 none [] [] p = Except.ok (recordClues g 0 [] p) :=
    scanPath_ok g d p 0 none [] [] hnodup (by simp) hbounds (by simpa using hchain)
  have hrec : recordClues g 0 [] p = [] ++ canonFrom 0 ts := by
    apply recordClues_spec g p ts 0 0 []
    · intro q hq; simp at hq
    · simpa using hlb
    · simpa using hub
    · exact hsort
    · intro j hj
      have h := hclue j hj
      simpa using h
    · intro m hm hnot
      exact hblank m hm (by simpa using hnot)
  rw [List.nil_append] at hrec
  have hlook0 : ∀ j, j < ts.length →
      aget (canonFrom 0 ts) (((0 + j : Nat) : Int) + 1) = some ((ts.getD j 0 : Nat) : Int) :=
    fun j hj => aget_canonFrom ts 0 j hj
  have hlook : ∀ j, j < ts.length →
      aget (canonFrom 0 ts) (((j : Nat) : Int) + 1) = some ((ts.getD j 0 : Nat) : Int) := by
    intro j hj
    have h := hlook0 j hj
    simpa using h
  have hkeys1 : (keysOf (canonFrom 0 ts)).contains 1 = true := by
    rw [hts]
    simp [canonFrom, keysOf]
  have hpos1 : aget (canonFrom 0 ts) 1 = some 1 := by
    have h := hlook 0 (by rw [hts]; simp)
    rw [hfirst] at h
    simpa using h
  have hsorted_keys : List.insertionSort (fun a b => a ≤ b) (keysOf (canonFrom 0 ts)) =
      keysOf (canonFrom 0 ts) :=
    List.Sorted.insertionSort_eq (keys_sorted_canonFrom ts 0)
  have hasc : cluesAscending (canonFrom 0 ts) (keysOf (canonFrom 0 ts)) = true :=
    cluesAscending_canon ts 0 (canonFrom 0 ts) hlook0 hsort
  have hgap : firstGap 0 (keysOf (canonFrom 0 ts)) = none := firstGap_canonFrom ts 0
  have hlastkey : (keysOf (canonFrom 0 ts)).getLast?.getD 0 =
      ((ts.length - 1 : Nat) : Int) + 1 := by
    have h := keys_getLast_canonFrom ts 0 hC
    simpa using h
  have hlastpos : aget (canonFrom 0 ts) (((ts.length - 1 : Nat) : Int) + 1) =
      some ((p.length : Nat) : Int) := by
    have h := hlook (ts.length - 1) (by rw [hts]; simp only [List.length_cons]; omega)
    rw [getD_last_eq_getLast ts hC, hlast] at h
    exact h
  rw [validateCore]
  simp only [hlen, bne_self_eq_false, Bool.false_eq_true, if_false, hscan, hrec, hkeys1,
    Bool.not_true, hpos1, Option.getD_some, hsorted_keys, hasc, Bool.not_false, if_true,
    hgap, hlastkey, hlastpos]

/-! ### Grid updates and boards with one display value blanked out -/

theorem gridValG_setCell_same_zero (g : List (List Int)) (r c : Int) (x₁ x₂ : Int)
    (hr : r.toNat = x₁.toNat) (hc : c.toNat = x₂.toNat) :
    gridValG (setCell g r c 0) x₁ x₂ = 0 := by
  unfold gridValG setCell
  rw [← hr, ← hc]
  set row : List Int := g.getD r.toNat [] with hrow
  by_cases hlen : r.toNat < g.length
  · have h1 : (g.set r.toNat (row.set c.toNat 0)).getD r.toNat [] = row.set c.toNat 0 := by
      rw [List.getD_eq_getElem?_getD, List.getElem?_set_self hlen, Option.getD_some]
    rw [h1]
    by_cases hcl : c.toNat < row.length
    · rw [List.getD_eq_getElem?_getD, List.getElem?_set_self hcl, Option.getD_some]
    · exact List.getD_eq_default _ _ (by rw [List.length_set]; omega)
  · have h1 : (g.set r.toNat (row.set c.toNat 0)).getD r.toNat [] = [] := by
      apply List.getD_eq_default
      rw [List.length_set]
      omega
    rw [h1]
    simp

theorem gridValG_setCell_other (g : List (List Int)) (r c v : Int) (x₁ x₂ : Int)
    (h : r.toNat ≠ x₁.toNat ∨ c.toNat ≠ x₂.toNat) :
    gridValG (setCell g r c v) x₁ x₂ = gridValG g x₁ x₂ := by
  unfold gridValG setCell
  set row : List Int := g.getD r.toNat [] with hrow
  by_cases hrr : r.toNat = x₁.toNat
  · have hcc : c.toNat ≠ x₂.toNat := by
      rcases h with h | h
      · exact absurd hrr h
      · exact h
    rw [← hrr]
    by_cases hlen : r.toNat < g.length
    · have h1 : (g.set r.toNat (row.set c.toNat v)).getD r.toNat [] = row.set c.toNat v := by
        rw [List.getD_eq_getElem?_getD, List.getElem?_set_self hlen, Option.getD_some]
      rw [h1]
      rw [List.getD_eq_getElem?_getD, List.getElem?_set_ne hcc, ← List.getD_eq_getElem?_getD,
        hrow]
    · have h1 : (g.set r.toNat (row.set c.toNat v)).getD r.toNat [] = [] := by
        apply List.getD_eq_default
        rw [List.length_set]
        omega
      have h2 : row = [] := by
        rw [hrow]
        exact List.getD_eq_default _ _ (by omega)
      rw [h1, ← hrow, h2]
  · have h1 : (g.set r.toNat (row.set c.toNat v)).getD x₁.toNat [] = g.getD x₁.toNat [] := by
      rw [List.getD_eq_getElem?_getD, List.getElem?_set_ne hrr, ← List.getD_eq_getElem?_getD]
    rw [h1]

theorem zeroCell_n (b : Board) (cell : Coord) : (zeroCell b cell).n = b.n := by
  simp [zeroCell, Board.n, setCell, List.length_set]

/-- Blanking an unmapped display value changes no `clueSkip` verdict: such a
cell is already unconstrained (the falsy lookup) on the original board, and
blank on the other. -/
theorem clueSkip_zeroCell (b : Board) (cell : Coord)
    (htruthy : dictTruthy b.display_to_step = true)
    (hfalsy : optTruthy (aget (b.display_to_step.getD [])
      (gridValG b.grid cell.1 cell.2)) = false) :
    ∀ (x : Coord) (s : Int), clueSkip (zeroCell b cell) x s = clueSkip b x s := by
  intro x s
  simp only [clueSkip, zeroCell]
  by_cases hx : cell.1.toNat = x.1.toNat ∧ cell.2.toNat = x.2.toNat
  · have hz : gridValG (setCell b.grid cell.1 cell.2 0) x.1 x.2 = 0 :=
      gridValG_setCell_same_zero b.grid cell.1 cell.2 x.1 x.2 hx.1 hx.2
    have hsame : gridValG b.grid x.1 x.2 = gridValG b.grid cell.1 cell.2 := by
      unfold gridValG
      rw [← hx.1, ← hx.2]
    rw [hz, hsame]
    by_cases hd0 : gridValG b.grid cell.1 cell.2 = 0
    · rw [hd0]
    · have hd : (gridValG b.grid cell.1 cell.2 != 0) = true := by simpa using hd0
      simp [hd, htruthy, hfalsy]
  · have hne : gridValG (setCell b.grid cell.1 cell.2 0) x.1 x.2 = gridValG b.grid x.1 x.2 := by
      apply gridValG_setCell_other
      by_cases h1 : cell.1.toNat = x.1.toNat
      · exact Or.inr (fun h2 => hx ⟨h1, h2⟩)
      · exact Or.inl h1
    rw [hne]

/-- Blanking an unmapped display value leaves `Board.givens` unchanged. -/
theorem givens_zeroCell (b : Board) (cell : Coord)
    (htruthy : dictTruthy b.display_to_step = true)
    (hfalsy : optTruthy (aget (b.display_to_step.getD [])
      (gridValG b.grid cell.1 cell.2)) = false) :
    Board.givens (zeroCell b cell) = Board.givens b := by
  unfold Board.givens
  rw [zeroCell_n]
  apply List.foldl_ext
  intro m r hr
  apply List.foldl_ext
  intro m' c hc
  simp only [zeroCell]
  by_cases hx : cell.1.toNat = ((r : Int)).toNat ∧ cell.2.toNat = ((c : Int)).toNat
  · have hz : gridValG (setCell b.grid cell.1 cell.2 0) (r : Int) (c : Int) = 0 :=
      gridValG_setCell_same_zero b.grid cell.1 cell.2 _ _ hx.1 hx.2
    have hsame : gridValG b.grid (r : Int) (c : Int) = gridValG b.grid cell.1 cell.2 := by
      unfold gridValG
      rw [← hx.1, ← hx.2]
    rw [hz, hsame]
    by_cases hd0 : gridValG b.grid cell.1 cell.2 = 0
    · rw [hd0]
    · have hd : (gridValG b.grid cell.1 cell.2 != 0) = true := by simpa using hd0
      simp [hd, htruthy, hfalsy]
  · have hne : gridValG (setCell b.grid cell.1 cell.2 0) (r : Int) (c : Int) =
        gridValG b.grid (r : Int) (c : Int) := by
      apply gridValG_setCell_other
      by_cases h1 : cell.1.toNat = ((r : Int)).toNat
      · exact Or.inr (fun h2 => hx ⟨h1, h2⟩)
      · exact Or.inl h1
    rw [hne]

theorem foldl_preserve {α β : Type} {P : β → Prop} {f : β → α → β} :
    ∀ (l : List α) (init : β), P init → (∀ acc a, a ∈ l → P acc → P (f acc a)) →
      P (l.foldl f init)
  | [], init, h, _ => h
  | a :: l, init, h, hstep =>
    foldl_preserve l (f init a) (hstep init a (List.mem_cons_self _ _) h)
      (fun acc x hx hacc => hstep acc x (List.mem_cons_of_mem _ hx) hacc)

/-- Every coordinate stored in `Board.givens` carries a truthy display value
whose conversion succeeded; a cell whose display value fails to convert is
omitted. -/
theorem givens_not_cell (b : Board) (cell : Coord)
    (htruthy : dictTruthy b.display_to_step = true)
    (hfalsy : optTruthy (aget (b.display_to_step.getD [])
      (gridValG b.grid cell.1 cell.2)) = false) :
    ∀ s : Int, aget (Board.givens b) s ≠ some cell := by
  have hmem : ∀ q ∈ Board.givens b, q.2 ≠ cell := by
    unfold Board.givens
    refine @foldl_preserve Nat (List (Int × Coord)) (fun m => ∀ q ∈ m, q.2 ≠ cell) _
      (List.range b.n) [] (by intro q hq; simp at hq) ?_
    intro acc r hrmem hacc
    refine @foldl_preserve Nat (List (Int × Coord)) (fun m => ∀ q ∈ m, q.2 ≠ cell) _
      (List.range b.n) acc hacc ?_
    intro m c hcmem hm q hq
    by_cases hd0 : (gridValG b.grid (r : Int) (c : Int) != 0) = true
    · simp only [hd0, if_true, htruthy] at hq
      by_cases hop : optTruthy (aget (b.display_to_step.getD [])
          (gridValG b.grid (r : Int) (c : Int))) = true
      · simp only [hop, if_true] at hq
        unfold aset at hq
        rcases List.mem_append.mp hq with hq1 | hq2
        · exact hm q (List.mem_filter.mp hq1).1
        · have hq3 : q.2 = ((r : Int), (c : Int)) := by
            have h4 := List.mem_singleton.mp hq2
            rw [h4]
          rw [hq3]
          intro heq
          apply absurd hfalsy
          have hsame : gridValG b.grid cell.1 cell.2 =
              gridValG b.grid (r : Int) (c : Int) := by
            unfold gridValG
            rw [← heq]
          rw [hsame]
          simp [hop]
      · have hop2 : optTruthy (aget (b.display_to_step.getD [])
            (gridValG b.grid (r : Int) (c : Int))) = false := by
          revert hop
          cases optTruthy (aget (b.display_to_step.getD [])
            (gridValG b.grid (r : Int) (c : Int))) <;> simp
        simp only [hop2, Bool.false_eq_true, if_false] at hq
        exact hm q hq
    · have hd2 : (gridValG b.grid (r : Int) (c : Int) != 0) = false := by
        revert hd0
        cases (gridValG b.grid (r : Int) (c : Int) != 0) <;> simp
      simp only [hd2, Bool.false_eq_true, if_false] at hq
      exact hm q hq
  intro s hs
  have hfind : ∃ q, List.find? (fun p => p.1 == s) (Board.givens b) = some q ∧ q.2 = cell := by
    unfold aget at hs
    cases hf : List.find? (fun p => p.1 == s) (Board.givens b) with
    | none => rw [hf] at hs; simp at hs
    | some q =>
      rw [hf] at hs
      simp at hs
      exact ⟨q, rfl, hs⟩
  obtain ⟨q, hq1, hq2⟩ := hfind
  exact hmem q (List.mem_of_find?_eq_some hq1) hq2

/-- The solver DFS depends on the board only through `k`, the side length
and the `clueSkip` filter. -/
theorem solveDfs_congr (b b' : Board) (hk : b.k = b'.k) (hn : b.n = b'.n)
    (hskip : ∀ x s, clueSkip b x s = clueSkip b' x s)
    (diag : Bool) (giv : List (Int × Coord)) (timeUp : List Coord → Bool) :
    ∀ (fuel : Nat) (step : Int) (path : List Coord),
      solveDfs b diag giv timeUp fuel step path = solveDfs b' diag giv timeUp fuel step path := by
  intro fuel
  induction fuel with
  | zero => intro step path; rfl
  | succ fuel ih =>
    intro step path
    have hnb : ∀ r c dg, Board.neighbors b r c dg = Board.neighbors b' r c dg := by
      intro r c dg
      unfold Board.neighbors
      rw [hn]
    have hord : ∀ last used dg, _ordered_neighbors b last used dg =
        _ordered_neighbors b' last used dg := by
      intro last used dg
      unfold _ordered_neighbors
      simp only [hnb]
    simp only [solveDfs, ← hk, hnb, hord, hskip]
    by_cases htime : timeUp path = true
    · simp [htime]
    · have hf : timeUp path = false := by
        revert htime
        cases timeUp path <;> simp
      simp only [hf, Bool.false_eq_true, if_false]
      by_cases hstep : step > b.k
      · simp [hstep]
      · simp only [if_neg hstep]
        apply findSome?_ext
        intro cell
        by_cases hc1 : cell ∈ path
        · simp [hc1]
        · by_cases hc2 : clueSkip b' cell step = true
          · simp [hc1, hc2]
          · simp [hc1, hc2, ih]

/-- The counting DFS depends on the board only through `k`, the side length
and the `clueSkip` filter. -/
theorem countDfs_congr (b b' : Board) (hk : b.k = b'.k) (hn : b.n = b'.n)
    (hskip : ∀ x s, clueSkip b x s = clueSkip b' x s)
    (diag : Bool) (giv : List (Int × Coord)) (limit : Int) (timeUp : List Coord → Bool) :
    ∀ (fuel : Nat) (step : Int) (path : List Coord) (count : Int),
      countDfs b diag giv limit timeUp fuel step path count =
        countDfs b' diag giv limit timeUp fuel step path count := by
  intro fuel
  induction fuel with
  | zero => intro step path count; rfl
  | succ fuel ih =>
    intro step path count
    have hnb : ∀ r c dg, Board.neighbors b r c dg = Board.neighbors b' r c dg := by
      intro r c dg
      unfold Board.neighbors
      rw [hn]
    have hord : ∀ last used dg, _ordered_neighbors b last used dg =
        _ordered_neighbors b' last used dg := by
      intro last used dg
      unfold _ordered_neighbors
      simp only [hnb]
    simp only [countDfs, ← hk, hnb, hord, hskip]
    by_cases htime : timeUp path = true
    · simp [htime]
    · have hf : timeUp path = false := by
        revert htime
        cases timeUp path <;> simp
      simp only [hf, Bool.false_eq_true, if_false]
      by_cases hstep : step > b.k
      · simp [hstep]
      · simp only [if_neg hstep]
        apply List.foldl_ext
        intro acc cell _
        by_cases hacc : acc.1 = true
        · simp [hacc]
        · by_cases hc1 : cell ∈ path
          · simp [hacc, hc1]
          · by_cases hc2 : clueSkip b' cell step = true
            · simp [hacc, hc1, hc2]
            · simp [hacc, hc1, hc2, ih]

/-! ### Clue-set bookkeeping for the generator -/

theorem exists_of_findSome?_eq_some {α β : Type} {f : α → Option β} {b : β} :
    ∀ {l : List α}, l.findSome? f = some b → ∃ a ∈ l, f a = some b
  | [], h => by simp [List.findSome?_nil] at h
  | x :: xs, h => by
    rw [List.findSome?_cons] at h
    cases hx : f x with
    | some v =>
      rw [hx] at h
      refine ⟨x, List.mem_cons_self _ _, ?_⟩
      rw [hx]
      simpa using h
    | none =>
      rw [hx] at h
      have h2 : xs.findSome? f = some b := h
      obtain ⟨a, ha, hfa⟩ := exists_of_findSome?_eq_some h2
      exact ⟨a, List.mem_cons_of_mem _ ha, hfa⟩

theorem mem_sinsert (s : List Int) (y x : Int) : x ∈ sinsert s y ↔ x ∈ s ∨ x = y := by
  unfold sinsert
  by_cases h : y ∈ s
  · rw [if_pos (show s.contains y = true by simpa using h)]
    constructor
    · exact Or.inl
    · rintro (hx | rfl)
      · exact hx
      · exact h
  · rw [if_neg (show ¬ s.contains y = true by simpa using h)]
    simp

theorem nodup_sinsert (s : List Int) (y : Int) (h : s.Nodup) : (sinsert s y).Nodup := by
  unfold sinsert
  by_cases hc : y ∈ s
  · rw [if_pos (show s.contains y = true by simpa using hc)]
    exact h
  · rw [if_neg (show ¬ s.contains y = true by simpa using hc)]
    simp [List.nodup_append, h, hc]

theorem length_sinsert_le (s : List Int) (y : Int) : (sinsert s y).length ≤ s.length + 1 := by
  unfold sinsert
  by_cases hc : y ∈ s
  · rw [if_pos (show s.contains y = true by simpa using hc)]
    omega
  · rw [if_neg (show ¬ s.contains y = true by simpa using hc)]
    simp

theorem length_sinsert_notmem (s : List Int) (y : Int) (h : y ∉ s) :
    (sinsert s y).length = s.length + 1 := by
  unfold sinsert
  rw [if_neg (show ¬ s.contains y = true by simpa using h)]
  simp

theorem mem_foldl_sinsert : ∀ (l s : List Int) (x : Int),
    x ∈ l.foldl sinsert s ↔ x ∈ s ∨ x ∈ l
  | [], s, x => by simp
  | y :: l, s, x => by
    simp only [List.foldl_cons, mem_foldl_sinsert l (sinsert s y) x, mem_sinsert,
      List.mem_cons]
    tauto

theorem nodup_foldl_sinsert : ∀ (l s : List Int), s.Nodup → (l.foldl sinsert s).Nodup
  | [], _, h => h
  | y :: l, s, h => nodup_foldl_sinsert l (sinsert s y) (nodup_sinsert s y h)

theorem length_foldl_sinsert_le : ∀ (l s : List Int),
    (l.foldl sinsert s).length ≤ s.length + l.length
  | [], s => by simp
  | y :: l, s => by
    have h1 := length_foldl_sinsert_le l (sinsert s y)
    have h2 := length_sinsert_le s y
    simp only [List.foldl_cons, List.length_cons]
    omega

theorem length_foldl_sinsert_eq : ∀ (l s : List Int), l.Nodup → (∀ x ∈ l, x ∉ s) →
    (l.foldl sinsert s).length = s.length + l.length
  | [], s, _, _ => by simp
  | y :: l, s, hnd, hdj => by
    have h1 := length_foldl_sinsert_eq l (sinsert s y) hnd.of_cons (fun x hx => by
      rw [mem_sinsert]
      rintro (hs | he)
      · exact hdj x (List.mem_cons_of_mem _ hx) hs
      · exact (List.nodup_cons.mp hnd).1 (he ▸ hx))
    rw [List.foldl_cons, h1, length_sinsert_notmem s y (hdj y (List.mem_cons_self _ _))]
    simp only [List.length_cons]
    omega

theorem mem_intRange (a b x : Int) : x ∈ intRange a b ↔ a ≤ x ∧ x < b := by
  unfold intRange
  simp only [List.mem_map, List.mem_range]
  constructor
  · rintro ⟨i, hi, rfl⟩
    omega
  · rintro ⟨h1, h2⟩
    exact ⟨(x - a).toNat, by omega, by omega⟩

theorem nodup_intRange (a b : Int) : (intRange a b).Nodup := by
  unfold intRange
  exact List.Nodup.map (fun i j h => by omega) (List.nodup_range _)

theorem pyTake_nonneg {α : Type} (m : Int) (h : 0 ≤ m) (l : List α) :
    pyTake m l = l.take m.toNat := by
  simp [pyTake, h]

theorem create_display_mapping_length (g : List (List Int)) (S : List Int) :
    ((_create_display_grid g S).2).length = S.length := by
  simp only [_create_display_grid, List.length_map, List.enum_length]
  exact (List.perm_insertionSort _ S).length_eq

theorem sawDfs_some_shape (n : Nat) (diag : Bool)
    (shuffle : List Coord → List Coord → List Coord) (clock : List Coord → Bool) :
    ∀ (fuel : Nat) (path q : List Coord), sawDfs n diag shuffle clock fuel path = some q →
      q.length = n * n ∧ ∃ ext, q = path ++ ext := by
  intro fuel
  induction fuel with
  | zero => intro path q h; simp [sawDfs] at h
  | succ fuel ih =>
    intro path q h
    rw [sawDfs] at h
    by_cases hl : (path.length == n * n) = true
    · rw [if_pos hl] at h
      injection h with h2
      subst h2
      exact ⟨by simpa using hl, [], by simp⟩
    · rw [if_neg hl] at h
      obtain ⟨nb, hmem, hrec⟩ := exists_of_findSome?_eq_some h
      obtain ⟨hlen, ext, hext⟩ := ih (path ++ [nb]) q hrec
      exact ⟨hlen, nb :: ext, by simpa [List.append_assoc] using hext⟩

/-- The densification loop never returns more clues than the larger of the
incoming clue-set size and the clue budget (the budget check runs before
every growth step). -/
theorem densify_size (n : Nat) (diag : Bool) (k : Int) (path : List Coord) (max_clues : Int)
    (clock : Nat → List Coord → Bool) :
    ∀ (fuel : Nat) (cs more : List Int) (round : Nat)
      (dg : List (List Int)) (p : List Coord) (m : List (Int × Int)),
      densify n diag k path max_clues clock fuel cs more round = some (dg, p, m) →
      (m.length : Int) ≤ max (cs.length : Int) max_clues := by
  intro fuel
  induction fuel with
  | zero => intro cs more round dg p m h; simp [densify] at h
  | succ fuel ih =>
    intro cs more round dg p m h
    rw [densify] at h
    split at h
    · simp only [Option.some.injEq, Prod.mk.injEq] at h
      obtain ⟨h1, h2, h3⟩ := h
      rw [← h3, create_display_mapping_length]
      exact le_max_left _ _
    · split at h
      · simp at h
      · rename_i hcount hbrk
        have hrec := ih (sinsert cs (more.getLast?.getD 0)) more.dropLast (round + 1) dg p m h
        have h1 : (cs.length : Int) < max_clues := by
          by_contra hge
          apply hbrk
          simp only [Bool.or_eq_true, decide_eq_true_eq]
          left
          omega
        have h2 := length_sinsert_le cs (more.getLast?.getD 0)
        omega

/-- Exact clue count on the fast path: the initial clue set is `{1, k}` plus
`max(4, n) - 2` distinct interior extras, i.e. `min(max(4, n), n*n)` clues in
all, and no densification ever runs. -/
theorem fast_clue_count (n : Nat) (diag : Bool) (orc : GenOracles)
    (hextras : ∀ a l, (orc.extrasShuffle a l).Perm l) :
    ∀ (fuel attempt : Nat) (dg : List (List Int)) (p : List Coord) (m : List (Int × Int)),
      _generate_puzzle_fast_go n diag orc fuel attempt = some (dg, p, m) →
      (m.length : Int) = min (max 4 (n : Int)) ((n : Int) * n) := by
  intro fuel
  induction fuel with
  | zero => intro attempt dg p m h; simp [_generate_puzzle_fast_go] at h
  | succ fuel ih =>
    intro attempt dg p m h
    rw [_generate_puzzle_fast_go] at h
    split at h
    · exact ih _ _ _ _ h
    · rename_i path' hsaw
      rw [_random_saw_cover_all] at hsaw
      obtain ⟨hplen, ext, hext⟩ := sawDfs_some_shape n diag _ _ _ _ _ hsaw
      have hn1 : 1 ≤ n := by
        by_contra hn0
        have : n = 0 := by omega
        rw [this] at hplen
        rw [hext] at hplen
        simp at hplen
      simp only [Option.some.injEq, Prod.mk.injEq] at h
      obtain ⟨h1, h2, h3⟩ := h
      rw [← h3, create_display_mapping_length]
      have hperm := hextras attempt (intRange 2 ((n : Int) * n))
      have hmemE : ∀ x ∈ orc.extrasShuffle attempt (intRange 2 ((n : Int) * n)),
          2 ≤ x ∧ x < (n : Int) * n := by
        intro x hx
        exact (mem_intRange _ _ _).mp (hperm.mem_iff.mp hx)
      have hndE : (orc.extrasShuffle attempt (intRange 2 ((n : Int) * n))).Nodup :=
        hperm.nodup_iff.mpr (nodup_intRange _ _)
      have hlenE : (orc.extrasShuffle attempt (intRange 2 ((n : Int) * n))).length =
          (((n : Int) * n - 2).toNat) := by
        rw [hperm.length_eq]
        simp [intRange]
      rw [pyTake_nonneg _ (by simp only [get_clue_bounds]; omega)]
      have htknd : ((orc.extrasShuffle attempt (intRange 2 ((n : Int) * n))).take
          ((get_clue_bounds n).1 - 2).toNat).Nodup :=
        List.Nodup.sublist (List.take_sublist _ _) hndE
      have htkmem : ∀ x ∈ (orc.extrasShuffle attempt (intRange 2 ((n : Int) * n))).take
          ((get_clue_bounds n).1 - 2).toNat, 2 ≤ x ∧ x < (n : Int) * n := by
        intro x hx
        exact hmemE x (List.take_subset _ _ hx)
      have hbase : ∀ x ∈ sinsert (sinsert [] 1) ((n : Int) * n),
          x = 1 ∨ x = (n : Int) * n := by
        intro x hx
        rw [mem_sinsert, mem_sinsert] at hx
        simpa using hx
      rw [length_foldl_sinsert_eq _ _ htknd (fun x hx hxb => by
        have hb := hbase x hxb
        have hm := htkmem x hx
        rcases hb with hb | hb <;> omega)]
      have hbl : (sinsert (sinsert [] (1 : Int)) ((n : Int) * n)).length =
          if (n : Int) * n = 1 then 1 else 2 := by
        by_cases hk1 : (n : Int) * n = 1
        · rw [hk1]
          simp [sinsert]
        · rw [if_neg hk1]
          rw [length_sinsert_notmem _ _ (by
            intro hmem
            rw [mem_sinsert] at hmem
            rcases hmem with hm | hm
            · simp at hm
            · exact hk1 hm)]
          simp [sinsert]
      rw [List.length_take, hlenE]
      by_cases hk1 : (n : Int) * n = 1
      · rw [hbl, if_pos hk1]
        have hn : n = 1 := by
          by_contra hne
          have : 2 ≤ n := by omega
          have : (4 : Int) ≤ (n : Int) * n := by nlinarith
          omega
        rw [hn]
        simp [get_clue_bounds]
      · rw [hbl, if_neg hk1]
        have hk4 : 4 ≤ (n : Int) * n := by
          have hn : 2 ≤ n := by
            by_contra hne
            have : n = 1 := by omega
            rw [this] at hk1
            simp at hk1
          nlinarith
        simp only [get_clue_bounds]
        push_cast
        omega

/-- Non-fast attempts never return more clues than the larger of the
injected `CLUE_START` and the `min(n*n, n+8)` budget. -/
theorem genAttempts_size (n : Nat) (diag : Bool) (cfg : GenConfig) (orc : GenOracles)
    (h2 : 2 ≤ cfg.CLUE_START) :
    ∀ (fuel attempt : Nat) (dg : List (List Int)) (p : List Coord) (m : List (Int × Int)),
      genAttempts n diag cfg orc fuel attempt = some (dg, p, m) →
      (m.length : Int) ≤ max cfg.CLUE_START (min ((n : Int) * n) ((n : Int) + 8)) := by
  intro fuel
  induction fuel with
  | zero => intro attempt dg p m h; simp [genAttempts] at h
  | succ fuel ih =>
    intro attempt dg p m h
    rw [genAttempts] at h
    split at h
    · exact ih _ _ _ _ h
    · rename_i path' hsaw
      simp only [] at h
      split at h
      · rename_i res hdens
        have hres : res = (dg, p, m) := Option.some.inj h
        rw [hres] at hdens
        have hds := densify_size n diag ((n : Int) * n) path' (get_clue_bounds n).2
          (orc.countClock attempt) _ _ _ _ dg p m hdens
        have hb := length_foldl_sinsert_le
          (pyTake (cfg.CLUE_START - 2)
            (orc.extrasShuffle attempt (intRange 2 ((n : Int) * n))))
          (sinsert (sinsert [] 1) ((n : Int) * n))
        have h0 : (sinsert ([] : List Int) 1).length = 1 := by simp [sinsert]
        have hbase := length_sinsert_le (sinsert ([] : List Int) 1) ((n : Int) * n)
        have htk : (pyTake (cfg.CLUE_START - 2)
            (orc.extrasShuffle attempt (intRange 2 ((n : Int) * n)))).length ≤
            (cfg.CLUE_START - 2).toNat := by
          rw [pyTake_nonneg _ (by omega)]
          rw [List.length_take]
          omega
        simp only [get_clue_bounds] at hds
        omega
      · exact ih _ _ _ _ h

/-- Claim C7 (amended): the returned clue count (one mapping entry per clue)
is at most `min(n*n, n+8)` whenever the injected `CLUE_START` lies within
`[2, min(n*n, n+8)]`, and on the fast path it is exactly
`min(max(4, n), n*n)` — within both claimed bounds.  The non-fast path's
*lower* bound is the injected `CLUE_START`, not `max(4, n)`. -/
theorem clue_count_amended :
    (∀ (n : Nat) (diag : Bool) (cfg : GenConfig) (orc : GenOracles)
      (dg : List (List Int)) (p : List Coord) (m : List (Int × Int)),
      (∀ a l, (orc.extrasShuffle a l).Perm l) →
      2 ≤ cfg.CLUE_START → cfg.CLUE_START ≤ min ((n : Int) * n) ((n : Int) + 8) →
      generate_unique_puzzle n diag cfg orc = some (dg, p, m) →
      (m.length : Int) ≤ min ((n : Int) * n) ((n : Int) + 8)) ∧
    (∀ (n : Nat) (diag : Bool) (cfg : GenConfig) (orc : GenOracles)
      (dg : List (List Int)) (p : List Coord) (m : List (Int × Int)),
      (∀ a l, (orc.extrasShuffle a l).Perm l) →
      _generate_puzzle_fast n diag cfg orc = some (dg, p, m) →
      (m.length : Int) = min (max 4 (n : Int)) ((n : Int) * n)) := by
  constructor
  · intro n diag cfg orc dg p m hextras h2 hcap hgen
    rw [generate_unique_puzzle] at hgen
    split at hgen
    · rw [_generate_puzzle_fast] at hgen
      have hf := fast_clue_count n diag orc hextras cfg.MAX_GEN_ATTEMPTS 0 dg p m hgen
      generalize hK : ((n : Int) * n) = K at hf ⊢
      omega
    · have hg := genAttempts_size n diag cfg orc h2 cfg.MAX_GEN_ATTEMPTS 0 dg p m hgen
      generalize hK : ((n : Int) * n) = K at hg hcap ⊢
      omega
  · intro n diag cfg orc dg p m hextras hgen
    rw [_generate_puzzle_fast] at hgen
    exact fast_clue_count n diag orc hextras _ _ dg p m hgen

/-- Witness for amended C7 at n = 2, CLUE_START = 4 (the value the test
scripts inject for small boards): the generated puzzle has 4 clues, within
the bound min(4, 10) = 4. -/
theorem clue_count_amended_witness :
    ((([(1, 1), (2, 2), (3, 3), (4, 4)] : List (Int × Int)).length : Int)) ≤
      min (((2 : Nat) : Int) * ((2 : Nat) : Int)) (((2 : Nat) : Int) + 8) :=
  clue_count_amended.1 2 false ⟨40, false, 10, 4⟩ idOracles [[1, 4], [2, 3]]
    [(0, 0), (1, 0), (1, 1), (0, 1)] [(1, 1), (2, 2), (3, 3), (4, 4)]
    (fun _ l => List.Perm.refl l) (by decide) (by decide) (by decide)

/-! ### Solver soundness: boards satisfying the documented clue invariant -/

theorem aget_aset_self {α : Type} (m : List (Int × α)) (key : Int) (v : α) :
    aget (aset m key v) key = some v := by
  unfold aget aset
  rw [List.find?_append]
  have h1 : (m.filter (fun p => p.1 != key)).find? (fun p => p.1 == key) = none := by
    rw [List.find?_eq_none]
    intro x hx
    have h2 := (List.mem_filter.mp hx).2
    simpa using h2
  rw [h1]
  simp

theorem aget_aset_ne {α : Type} (m : List (Int × α)) (key : Int) (v : α) (s : Int)
    (h : s ≠ key) : aget (aset m key v) s = aget m s := by
  unfold aget aset
  rw [List.find?_append]
  have h2 : List.find? (fun p : Int × α => p.1 == s) [(key, v)] = none := by
    rw [List.find?_cons_of_neg _ (by simpa using Ne.symm h)]
    rfl
  have h3 : ∀ l : List (Int × α),
      (l.filter (fun p => p.1 != key)).find? (fun p => p.1 == s) =
        l.find? (fun p => p.1 == s) := by
    intro l
    induction l with
    | nil => rfl
    | cons a l ih =>
      by_cases ha : a.1 = s
      · rw [List.filter_cons, if_pos (by simp only [bne_iff_ne, ne_eq, ha]; exact h),
          List.find?_cons_of_pos _ (by simpa using ha),
          List.find?_cons_of_pos _ (by simpa using ha)]
      · by_cases hk : a.1 = key
        · rw [List.filter_cons, if_neg (by simpa using hk),
            List.find?_cons_of_neg _ (by simpa using ha)]
          exact ih
        · rw [List.filter_cons, if_pos (by simpa using hk),
            List.find?_cons_of_neg _ (by simpa using ha),
            List.find?_cons_of_neg _ (by simpa using ha)]
          exact ih
  rw [h3 m, h2]
  cases m.find? (fun p : Int × α => p.1 == s) <;> rfl

theorem foldl_flatten {α β : Type} (f : β → α → β) :
    ∀ (ls : List (List α)) (init : β),
      ls.flatten.foldl f init = ls.foldl (fun acc l => l.foldl f acc) init
  | [], _ => rfl
  | l :: ls, init => by
    rw [List.flatten_cons, List.foldl_append, List.foldl_cons]
    exact foldl_flatten f ls _

theorem mem_pairsN (n : Nat) (p : Nat × Nat) : p ∈ pairsN n ↔ p.1 < n ∧ p.2 < n := by
  unfold pairsN
  rw [List.mem_flatten]
  constructor
  · rintro ⟨l, hl, hp⟩
    obtain ⟨r, hr, rfl⟩ := List.mem_map.mp hl
    obtain ⟨c, hc, rfl⟩ := List.mem_map.mp hp
    exact ⟨List.mem_range.mp hr, List.mem_range.mp hc⟩
  · rintro ⟨h1, h2⟩
    refine ⟨(List.range n).map (fun c => (p.1, c)), ?_, ?_⟩
    · exact List.mem_map.mpr ⟨p.1, List.mem_range.mpr h1, rfl⟩
    · exact List.mem_map.mpr ⟨p.2, List.mem_range.mpr h2, by simp⟩

theorem givens_eq_pairs (b : Board) :
    Board.givens b = (pairsN b.n).foldl (givStep b) [] := by
  unfold Board.givens pairsN givStep
  rw [foldl_flatten, List.foldl_map]
  simp only [List.foldl_map]

theorem inB_of_mem_neighborsG (n : Nat) (r c : Int) (dg : Bool) (x : Coord)
    (h : x ∈ neighborsG n r c dg) : inB n x.1 x.2 = true := by
  unfold neighborsG at h
  rw [List.mem_filterMap] at h
  obtain ⟨d, _, hd⟩ := h
  by_cases hb : inB n (r + d.1) (c + d.2) = true
  · rw [if_pos hb] at hd
    cases hd
    exact hb
  · rw [if_neg hb] at hd
    cases hd

theorem nodup_of_fresh {α : Type} (d : α) :
    ∀ (ext path : List α), path.Nodup →
      (∀ j, j < ext.length → ext.getD j d ∉ path ++ ext.take j) →
      (path ++ ext).Nodup
  | [], path, hp, _ => by simpa using hp
  | c :: ext, path, hp, hf => by
    have h0 : c ∉ path := by
      have h := hf 0 (by simp)
      simpa using h
    have hp' : (path ++ [c]).Nodup := by
      rw [List.nodup_append]
      exact ⟨hp, List.nodup_singleton c,
        fun x hx hxc => h0 ((List.mem_singleton.mp hxc) ▸ hx)⟩
    have hf' : ∀ j, j < ext.length → ext.getD j d ∉ (path ++ [c]) ++ ext.take j := by
      intro j hj
      have h := hf (j + 1) (by simpa using Nat.succ_lt_succ hj)
      simp only [List.getD_cons_succ, List.take_succ_cons] at h
      rw [← List.append_cons]
      exact h
    have h := nodup_of_fresh d ext (path ++ [c]) hp' hf'
    rw [← List.append_cons] at h
    exact h

theorem stp_inj {b : Board} {C : Nat} {stp : Nat → Int} {cell : Nat → Coord}
    (inv : ClueInvariant b C stp cell) :
    ∀ d e, 1 ≤ d → d ≤ C → 1 ≤ e → e ≤ C → stp d = stp e → d = e := by
  intro d e hd1 hdC he1 heC h
  rcases lt_trichotomy d e with hlt | heq | hgt
  · have := inv.mono d e hd1 hlt heC
    omega
  · exact heq
  · have := inv.mono e d he1 hgt hdC
    omega

theorem givStep_at_cell {b : Board} {C : Nat} {stp : Nat → Int} {cell : Nat → Coord}
    (inv : ClueInvariant b C stp cell) (m : List (Int × Coord)) (rc : Nat × Nat)
    (d : Nat) (hd1 : 1 ≤ d) (hdC : d ≤ C) (hc : ((rc.1 : Int), (rc.2 : Int)) = cell d) :
    givStep b m rc = aset m (stp d) (cell d) := by
  have hdv : gridValG b.grid (rc.1 : Int) (rc.2 : Int) = (d : Int) := by
    rw [show ((rc.1 : Int)) = (cell d).1 from congrArg Prod.fst hc,
      show ((rc.2 : Int)) = (cell d).2 from congrArg Prod.snd hc]
    exact (inv.cellOk d hd1 hdC).2
  obtain ⟨hmapd, hstp⟩ := inv.mapOk d hd1 hdC
  unfold givStep
  rw [hdv]
  rw [if_pos (by simp only [bne_iff_ne, ne_eq]; omega)]
  simp only [inv.truthy, if_true, hmapd]
  rw [if_pos (by simp only [optTruthy, bne_iff_ne, ne_eq]; omega)]
  rw [Option.getD_some, hc]

theorem givStep_blank_or_cell {b : Board} {C : Nat} {stp : Nat → Int} {cell : Nat → Coord}
    (inv : ClueInvariant b C stp cell) (m : List (Int × Coord)) (rc : Nat × Nat)
    (h1 : rc.1 < b.n) (h2 : rc.2 < b.n) :
    givStep b m rc = m ∨
    ∃ d, 1 ≤ d ∧ d ≤ C ∧ ((rc.1 : Int), (rc.2 : Int)) = cell d ∧
      givStep b m rc = aset m (stp d) (cell d) := by
  have hib : inB b.n (rc.1 : Int) (rc.2 : Int) = true := by
    unfold inB
    simp only [Bool.and_eq_true, decide_eq_true_eq]
    refine ⟨⟨⟨by positivity, by exact_mod_cast h1⟩, by positivity⟩, by exact_mod_cast h2⟩
  rcases inv.gridOk _ _ hib with h0 | ⟨d, hd1, hdC, _, hcell⟩
  · left
    unfold givStep
    rw [h0]
    simp
  · exact Or.inr ⟨d, hd1, hdC, hcell, givStep_at_cell inv m rc d hd1 hdC hcell⟩

theorem givens_entries_sound {b : Board} {C : Nat} {stp : Nat → Int} {cell : Nat → Coord}
    (inv : ClueInvariant b C stp cell) :
    ∀ s v, aget (Board.givens b) s = some v →
      ∃ d, 1 ≤ d ∧ d ≤ C ∧ stp d = s ∧ v = cell d := by
  rw [givens_eq_pairs]
  have main : ∀ (ps : List (Nat × Nat)) (m : List (Int × Coord)),
      (∀ p ∈ ps, p.1 < b.n ∧ p.2 < b.n) →
      (∀ s v, aget m s = some v → ∃ d, 1 ≤ d ∧ d ≤ C ∧ stp d = s ∧ v = cell d) →
      ∀ s v, aget (ps.foldl (givStep b) m) s = some v →
        ∃ d, 1 ≤ d ∧ d ≤ C ∧ stp d = s ∧ v = cell d := by
    intro ps
    induction ps with
    | nil => exact fun m _ h => h
    | cons p ps ih =>
      intro m hin hm
      rw [List.foldl_cons]
      refine ih _ (fun q hq => hin q (List.mem_cons_of_mem _ hq)) ?_
      intro s v hget
      rcases givStep_blank_or_cell inv m p (hin p (List.mem_cons_self _ _)).1
          (hin p (List.mem_cons_self _ _)).2 with he | ⟨d, hd1, hdC, _, he⟩
      · rw [he] at hget
        exact hm s v hget
      · rw [he] at hget
        by_cases hs : s = stp d
        · subst hs
          rw [aget_aset_self] at hget
          exact ⟨d, hd1, hdC, rfl, (Option.some.inj hget).symm⟩
        · rw [aget_aset_ne _ _ _ _ hs] at hget
          exact hm s v hget
  exact main (pairsN b.n) [] (fun p hp => (mem_pairsN _ p).mp hp)
    (by intro s v h; simp [aget] at h)

theorem givens_complete {b : Board} {C : Nat} {stp : Nat → Int} {cell : Nat → Coord}
    (inv : ClueInvariant b C stp cell) :
    ∀ d, 1 ≤ d → d ≤ C → aget (Board.givens b) (stp d) = some (cell d) := by
  intro d hd1 hdC
  rw [givens_eq_pairs]
  obtain ⟨hib, _⟩ := inv.cellOk d hd1 hdC
  have hb4 : 0 ≤ (cell d).1 ∧ (cell d).1 < (b.n : Int) ∧ 0 ≤ (cell d).2 ∧
      (cell d).2 < (b.n : Int) := by
    unfold inB at hib
    simp only [Bool.and_eq_true, decide_eq_true_eq] at hib
    exact ⟨hib.1.1.1, hib.1.1.2, hib.1.2, hib.2⟩
  have hcoord : (((cell d).1.toNat : Int), ((cell d).2.toNat : Int)) = cell d := by
    rw [Int.toNat_of_nonneg hb4.1, Int.toNat_of_nonneg hb4.2.2.1]
  have hmem : ((cell d).1.toNat, (cell d).2.toNat) ∈ pairsN b.n := by
    rw [mem_pairsN]
    constructor
    · have := hb4.2.1
      omega
    · have := hb4.2.2.2
      omega
  obtain ⟨l₁, l₂, hsplit⟩ := List.append_of_mem hmem
  have hin₂ : ∀ q ∈ l₂, q.1 < b.n ∧ q.2 < b.n := by
    intro q hq
    refine (mem_pairsN _ q).mp ?_
    rw [hsplit]
    exact List.mem_append.mpr (Or.inr (List.mem_cons_of_mem _ hq))
  rw [hsplit, List.foldl_append, List.foldl_cons]
  have hstepw : givStep b (l₁.foldl (givStep b) []) ((cell d).1.toNat, (cell d).2.toNat) =
      aset (l₁.foldl (givStep b) []) (stp d) (cell d) :=
    givStep_at_cell inv _ _ d hd1 hdC hcoord
  rw [hstepw]
  have hpersist : ∀ (ps : List (Nat × Nat)) (m : List (Int × Coord)),
      (∀ p ∈ ps, p.1 < b.n ∧ p.2 < b.n) →
      aget m (stp d) = some (cell d) →
      aget (ps.foldl (givStep b) m) (stp d) = some (cell d) := by
    intro ps
    induction ps with
    | nil => exact fun m _ h => h
    | cons p ps ih =>
      intro m hin hm
      rw [List.foldl_cons]
      refine ih _ (fun q hq => hin q (List.mem_cons_of_mem _ hq)) ?_
      rcases givStep_blank_or_cell inv m p (hin p (List.mem_cons_self _ _)).1
          (hin p (List.mem_cons_self _ _)).2 with he | ⟨e, he1, heC, _, he⟩
      · rw [he]
        exact hm
      · rw [he]
        by_cases hs : stp d = stp e
        · have hde : d = e := stp_inj inv d e hd1 hdC he1 heC hs
          subst hde
          rw [aget_aset_self]
        · rw [aget_aset_ne _ _ _ _ hs]
          exact hm
  exact hpersist l₂ _ hin₂ (aget_aset_self _ _ _)

/-- Soundness of the solver's DFS: a returned path extends the input path by
cells that are fresh, in bounds, chained to their predecessor, pass the clue
filter, and are forced to the given cell whenever their step has one; the
step counter runs exactly up to `k + 1`. -/
theorem solveDfs_sound (b : Board) (diag : Bool) (giv : List (Int × Coord))
    (timeUp : List Coord → Bool) :
    ∀ (fuel : Nat) (step : Int) (path q : List Coord), path ≠ [] →
      solveDfs b diag giv timeUp fuel step path = some q →
      ∃ ext : List Coord, q = path ++ ext ∧
        (step ≤ b.k + 1 → (ext.length : Int) = b.k + 1 - step) ∧
        List.Chain' (fun a c => (neighborsG b.n a.1 a.2 diag).contains c = true)
          (path.getLast?.getD (0, 0) :: ext) ∧
        ∀ j, j < ext.length →
          ext.getD j (0, 0) ∉ path ++ ext.take j ∧
          inB b.n (ext.getD j (0, 0)).1 (ext.getD j (0, 0)).2 = true ∧
          clueSkip b (ext.getD j (0, 0)) (step + (j : Int)) = false ∧
          ∀ t, aget giv (step + (j : Int)) = some t → ext.getD j (0, 0) = t := by
  intro fuel
  induction fuel with
  | zero =>
    intro step path q hne h
    exact absurd h (by simp [solveDfs])
  | succ fuel ih =>
    intro step path q hne h
    simp only [solveDfs] at h
    by_cases ht : timeUp path = true
    · rw [if_pos ht] at h
      exact absurd h (by simp)
    · rw [if_neg ht] at h
      by_cases hstep : step > b.k
      · rw [if_pos hstep] at h
        refine ⟨[], by simpa using (Option.some.inj h).symm, ?_, List.chain'_singleton _, ?_⟩
        · intro hle
          simp only [List.length_nil, Nat.cast_zero]
          omega
        · intro j hj
          simp at hj
      · rw [if_neg hstep] at h
        obtain ⟨c0, hadjc, hforce, hc0⟩ : ∃ c0,
            (neighborsG b.n (path.getLast?.getD (0, 0)).1 (path.getLast?.getD (0, 0)).2
              diag).contains c0 = true ∧
            (∀ t, aget giv step = some t → c0 = t) ∧
            (if path.contains c0 = true then none
             else if clueSkip b c0 step = true then none
             else solveDfs b diag giv timeUp fuel (step + 1) (path ++ [c0])) = some q := by
          split at h
          · rename_i target heq
            split at h
            · rename_i hguard
              obtain ⟨c0, hc0mem, hc0⟩ := exists_of_findSome?_eq_some h
              have hc0t : c0 = target := by simpa using hc0mem
              subst hc0t
              rw [Bool.and_eq_true] at hguard
              obtain ⟨-, hcont⟩ := hguard
              refine ⟨c0, by exact hcont, ?_, hc0⟩
              intro t htg
              rw [heq] at htg
              exact Option.some.inj htg
            · exact absurd h (by simp)
          · rename_i heq
            obtain ⟨c0, hc0mem, hc0⟩ := exists_of_findSome?_eq_some h
            unfold _ordered_neighbors at hc0mem
            rw [(List.perm_insertionSort _ _).mem_iff] at hc0mem
            obtain ⟨hmemN, -⟩ := List.mem_filter.mp hc0mem
            refine ⟨c0, by simpa [Board.neighbors] using hmemN, ?_, hc0⟩
            intro t htg
            rw [heq] at htg
            exact absurd htg (by simp)
        by_cases hcp : path.contains c0 = true
        · rw [if_pos hcp] at hc0
          exact absurd hc0 (by simp)
        · rw [if_neg hcp] at hc0
          by_cases hcs : clueSkip b c0 step = true
          · rw [if_pos hcs] at hc0
            exact absurd hc0 (by simp)
          · rw [if_neg hcs] at hc0
            obtain ⟨ext', hq, hlen', hchain', hper'⟩ :=
              ih (step + 1) (path ++ [c0]) q (by simp) hc0
            have hinb : inB b.n c0.1 c0.2 = true :=
              inB_of_mem_neighborsG b.n _ _ diag c0 (by simpa using hadjc)
            have hlast2 : (path ++ [c0]).getLast?.getD (0, 0) = c0 := by simp
            refine ⟨c0 :: ext', ?_, ?_, ?_, ?_⟩
            · rw [hq, ← List.append_cons]
            · intro hle
              have h2 : (ext'.length : Int) = b.k + 1 - (step + 1) := hlen' (by omega)
              simp only [List.length_cons]
              push_cast
              omega
            · rw [List.chain'_cons]
              rw [hlast2] at hchain'
              exact ⟨hadjc, hchain'⟩
            · intro j hj
              cases j with
              | zero =>
                have hskf : clueSkip b c0 step = false := by
                  revert hcs
                  cases clueSkip b c0 step <;> simp
                simp only [List.getD_cons_zero, List.take_zero, List.append_nil]
                refine ⟨by simpa using hcp, hinb, by simpa using hskf, ?_⟩
                intro t htg
                exact hforce t (by simpa using htg)
              | succ j' =>
                have hj' : j' < ext'.length := by simpa using Nat.lt_of_succ_lt_succ hj
                obtain ⟨hfr, hib, hsk, htg⟩ := hper' j' hj'
                have hidx : step + ((j' + 1 : Nat) : Int) = step + 1 + (j' : Int) := by
                  push_cast
                  ring
                simp only [List.getD_cons_succ, List.take_succ_cons, hidx]
                refine ⟨?_, hib, hsk, htg⟩
                rw [List.append_cons]
                exact hfr

/-- Claim C3: on a board whose grid and `display_to_step` table satisfy the
documented invariant (displays exactly `1..C`, each at one cell, mapped in
ascending order to positive true steps) and whose givens include true step 1
and true step `k = n*n`, every path returned by `solve_backtracking` is
accepted by `validate_path`: the solver only emits rule-satisfying paths. -/
theorem solver_paths_validate (b : Board) (diag : Bool) (timeUp : List Coord → Bool)
    (C : Nat) (stp : Nat → Int) (cell : Nat → Coord)
    (inv : ClueInvariant b C stp cell)
    (hk : b.k = (b.n : Int) * (b.n : Int))
    (hs1 : ∃ d, 1 ≤ d ∧ d ≤ C ∧ stp d = 1)
    (hsk : ∃ e, 1 ≤ e ∧ e ≤ C ∧ stp e = b.k)
    (q : List Coord)
    (hsolve : solve_backtracking b diag timeUp = some q) :
    validate_path b q (some diag) = (true, "OK") := by
  obtain ⟨e, he1, heC, hek⟩ := hsk
  have h11 : stp 1 = 1 ∧ 1 ≤ C := by
    obtain ⟨d₀, hd₀1, hd₀C, hd₀⟩ := hs1
    have hC1 : 1 ≤ C := le_trans hd₀1 hd₀C
    rcases Nat.lt_or_ge 1 d₀ with hlt | hge
    · have hm := inv.mono 1 d₀ le_rfl hlt hd₀C
      have h1 := (inv.mapOk 1 le_rfl hC1).2
      omega
    · have hd : d₀ = 1 := by omega
      subst hd
      exact ⟨hd₀, hC1⟩
  obtain ⟨hstp1, hC1⟩ := h11
  have hn1 : 1 ≤ b.n := by
    have hib := (inv.cellOk 1 le_rfl hC1).1
    unfold inB at hib
    simp only [Bool.and_eq_true, decide_eq_true_eq] at hib
    have h1 := hib.1.1.1
    have h2 := hib.1.1.2
    omega
  have hk1 : 1 ≤ b.k := by
    rw [hk]
    have h1 : (1 : Int) ≤ (b.n : Int) := by exact_mod_cast hn1
    nlinarith
  have hgiv : ∀ d, 1 ≤ d → d ≤ C → aget (Board.givens b) (stp d) = some (cell d) :=
    givens_complete inv
  have hg1 : aget (Board.givens b) 1 = some (cell 1) := by
    rw [← hstp1]
    exact hgiv 1 le_rfl hC1
  rw [solve_backtracking] at hsolve
  have hdfs : solveDfs b diag (Board.givens b) timeUp (b.k.toNat + 2) 2 [cell 1] = some q := by
    split at hsolve
    · rename_i s heq
      rw [hg1] at heq
      obtain rfl : s = cell 1 := (Option.some.inj heq).symm
      obtain ⟨s', hs'mem, hdfs'⟩ := exists_of_findSome?_eq_some hsolve
      obtain rfl : s' = cell 1 := by simpa using hs'mem
      exact hdfs'
    · rename_i heq
      rw [hg1] at heq
      exact absurd heq (by simp)
  obtain ⟨ext, hq, hlenext, hchainq, hper⟩ :=
    solveDfs_sound b diag (Board.givens b) timeUp (b.k.toNat + 2) 2 [cell 1] q (by simp) hdfs
  have hlext : (ext.length : Int) = b.k - 1 := by
    have h := hlenext (by omega)
    omega
  have hqlen : (q.length : Int) = b.k := by
    rw [hq]
    simp only [List.length_append, List.length_singleton]
    push_cast
    omega
  set ts : List Nat := (List.range e).map (fun j => (stp (j + 1)).toNat) with hts
  have htslen : ts.length = e := by
    rw [hts]
    simp
  have htsget : ∀ j, j < e → ts.getD j 0 = (stp (j + 1)).toNat := by
    intro j hj
    rw [hts, List.getD_eq_getElem?_getD, List.getElem?_map, List.getElem?_range hj]
    rfl
  have hstple : ∀ d, 1 ≤ d → d ≤ e → stp d ≤ b.k := by
    intro d hd1 hde
    rcases Nat.lt_or_ge d e with hlt | hge
    · have h := inv.mono d e hd1 hlt heC
      omega
    · have hde' : d = e := by omega
      rw [hde', hek]
  have hnodup : q.Nodup := by
    rw [hq]
    refine nodup_of_fresh (0, 0) ext [cell 1] (List.nodup_singleton _) ?_
    intro j hj
    exact (hper j hj).1
  have hbounds : ∀ c ∈ q, inB b.grid.length c.1 c.2 = true := by
    intro c hc
    rw [hq] at hc
    rcases List.mem_append.mp hc with h1 | h2
    · obtain rfl : c = cell 1 := by simpa using h1
      exact (inv.cellOk 1 le_rfl hC1).1
    · obtain ⟨i, hi, hci⟩ := List.mem_iff_getElem.mp h2
      have hgd : ext.getD i (0, 0) = c := by
        rw [List.getD_eq_getElem?_getD, List.getElem?_eq_getElem hi]
        exact hci
      have hib := (hper i hi).2.1
      rw [hgd] at hib
      exact hib
  have hchainq' : List.Chain'
      (fun a c => (neighborsG b.grid.length a.1 a.2 diag).contains c = true) q := by
    have hgl : ([cell 1] : List Coord).getLast?.getD (0, 0) = cell 1 := by simp
    rw [hgl] at hchainq
    rw [hq]
    exact hchainq
  have htsne : ts ≠ [] := by
    intro hcon
    have h := congrArg List.length hcon
    rw [htslen] at h
    simp at h
    omega
  have hsort : ts.Pairwise (· < ·) := by
    rw [hts, List.pairwise_map]
    refine List.Pairwise.imp_of_mem ?_ (List.pairwise_lt_range e)
    intro a c ha hc hlt
    have hcr := List.mem_range.mp hc
    have h1 := (inv.mapOk (a + 1) (by omega) (by omega)).2
    have h2 := inv.mono (a + 1) (c + 1) (by omega) (by omega) (by omega)
    omega
  have hub : ∀ x ∈ ts, x ≤ q.length := by
    intro x hx
    rw [hts] at hx
    obtain ⟨j, hj, rfl⟩ := List.mem_map.mp hx
    have hjr := List.mem_range.mp hj
    have hle := hstple (j + 1) (by omega) (by omega)
    have h1 := (inv.mapOk (j + 1) (by omega) (by omega)).2
    omega
  have hfirst : ts.getD 0 0 = 1 := by
    rw [htsget 0 (by omega)]
    simp [hstp1]
  have hlast : ts.getLast?.getD 0 = q.length := by
    rw [List.getLast?_eq_getElem?, htslen, ← List.getD_eq_getElem?_getD,
      htsget (e - 1) (by omega)]
    have he' : e - 1 + 1 = e := by omega
    rw [he', hek]
    omega
  have hclue : ∀ j, j < ts.length →
      gridValG b.grid ((q.getD (ts.getD j 0 - 1) (0, 0)).1)
        ((q.getD (ts.getD j 0 - 1) (0, 0)).2) = ((j : Nat) : Int) + 1 := by
    intro j hj
    rw [htslen] at hj
    rw [htsget j hj]
    have hcell : q.getD ((stp (j + 1)).toNat - 1) (0, 0) = cell (j + 1) := by
      rcases Nat.eq_zero_or_pos j with hj0 | hjpos
      · subst hj0
        have h1 : stp (0 + 1) = 1 := by simpa using hstp1
        rw [h1, hq]
        rfl
      · have hj1C : j + 1 ≤ C := by omega
        have hs2 : 2 ≤ stp (j + 1) := by
          have hm := inv.mono 1 (j + 1) le_rfl (by omega) hj1C
          omega
        have hsk' : stp (j + 1) ≤ b.k := hstple (j + 1) (by omega) (by omega)
        have hi : (stp (j + 1)).toNat - 2 < ext.length := by omega
        obtain ⟨-, -, -, htgt⟩ := hper ((stp (j + 1)).toNat - 2) hi
        have hidx : 2 + (((stp (j + 1)).toNat - 2 : Nat) : Int) = stp (j + 1) := by omega
        rw [hidx] at htgt
        have hext := htgt _ (hgiv (j + 1) (by omega) hj1C)
        rw [hq]
        have hpos : (stp (j + 1)).toNat - 1 = ((stp (j + 1)).toNat - 2) + 1 := by omega
        rw [hpos, show ([cell 1] ++ ext : List Coord) = cell 1 :: ext from rfl,
          List.getD_cons_succ]
        exact hext
    rw [hcell]
    have hdv := (inv.cellOk (j + 1) (by omega) (by omega)).2
    rw [hdv]
    omega
  have hblank : ∀ m, m < q.length → (m + 1) ∉ ts →
      gridValG b.grid ((q.getD m (0, 0)).1) ((q.getD m (0, 0)).2) = 0 := by
    intro m hm hnot
    cases m with
    | zero =>
      exfalso
      apply hnot
      rw [hts]
      refine List.mem_map.mpr ⟨0, List.mem_range.mpr (by omega), ?_⟩
      simp [hstp1]
    | succ i =>
      have hi : i < ext.length := by
        rw [hq] at hm
        simp only [List.length_append, List.length_singleton] at hm
        omega
      obtain ⟨-, hib, hskp, -⟩ := hper i hi
      have hqget : q.getD (i + 1) (0, 0) = ext.getD i (0, 0) := by
        rw [hq, show ([cell 1] ++ ext : List Coord) = cell 1 :: ext from rfl,
          List.getD_cons_succ]
      rw [hqget]
      rcases inv.gridOk (ext.getD i (0, 0)).1 (ext.getD i (0, 0)).2 hib with h0 |
        ⟨d, hd1, hdC, hdv, hcd⟩
      · exact h0
      · exfalso
        obtain ⟨hmapd, hstpd⟩ := inv.mapOk d hd1 hdC
        simp only [clueSkip] at hskp
        rw [hdv] at hskp
        rw [if_pos (by simp only [bne_iff_ne, ne_eq]; omega :
          ((d : Int) != 0) = true)] at hskp
        rw [if_pos inv.truthy, hmapd] at hskp
        simp only [Option.getD_some] at hskp
        rw [show optTruthy (some (stp d)) = true from by
          simp only [optTruthy, bne_iff_ne, ne_eq, decide_eq_true_eq]; omega] at hskp
        simp only [Bool.true_and, bne_eq_false_iff_eq] at hskp
        have hm1k : (2 : Int) + (i : Int) ≤ b.k := by omega
        have hdle : d ≤ e := by
          by_contra hgt
          have h := inv.mono e d he1 (by omega) hdC
          omega
        apply hnot
        rw [hts]
        refine List.mem_map.mpr ⟨d - 1, List.mem_range.mpr (by omega), ?_⟩
        have hd' : d - 1 + 1 = d := by omega
        rw [hd']
        omega
  exact validateCore_accepts b.grid b.k diag q ts hqlen hnodup hbounds hchainq' htsne
    hsort hub hfirst hlast hclue hblank

/-- Witness for C3 on the 1-by-1 board with display 1 at (0,0) mapped to
true step 1: the solver returns the single-cell path, and the validator
accepts it. -/
theorem solver_paths_validate_witness :
    validate_path ⟨[[1]], 1, false, some [(1, 1)], some [(1, 1)]⟩ [((0 : Int), (0 : Int))]
      (some false) = (true, "OK") :=
  solver_paths_validate ⟨[[1]], 1, false, some [(1, 1)], some [(1, 1)]⟩ false (fun _ => false)
    1 (fun _ => 1) (fun _ => ((0 : Int), (0 : Int)))
    ⟨by decide,
     fun d h1 hC => by
       have hd : d = 1 := Nat.le_antisymm hC h1
       subst hd
       exact ⟨by decide, by decide⟩,
     fun r c h => by
       have hrc : r = 0 ∧ c = 0 := by
         unfold inB at h
         simp only [Board.n, List.length_cons, List.length_nil, Bool.and_eq_true,
           decide_eq_true_eq] at h
         omega
       obtain ⟨hr, hc⟩ := hrc
       subst hr
       subst hc
       exact Or.inr ⟨1, le_rfl, le_rfl, by decide, rfl⟩,
     fun d h1 hC => by
       have hd : d = 1 := Nat.le_antisymm hC h1
       subst hd
       exact ⟨by decide, by decide⟩,
     fun d e h1 hlt hC => absurd hlt (by omega)⟩
    (by decide) ⟨1, le_rfl, le_rfl, rfl⟩ ⟨1, le_rfl, le_rfl, by decide⟩
    [((0 : Int), (0 : Int))] (by decide)

/-! ### Round-trip machinery: grids built by the generator -/

theorem gridValG_setCell_self (g : List (List Int)) (r c v : Int)
    (hr : r.toNat < g.length) (hc : c.toNat < (g.getD r.toNat []).length) :
    gridValG (setCell g r c v) r c = v := by
  unfold gridValG setCell
  set row : List Int := g.getD r.toNat [] with hrow
  have h1 : (g.set r.toNat (row.set c.toNat v)).getD r.toNat [] = row.set c.toNat v := by
    rw [List.getD_eq_getElem?_getD, List.getElem?_set_self hr, Option.getD_some]
  rw [h1, List.getD_eq_getElem?_getD, List.getElem?_set_self hc, Option.getD_some]

theorem setCell_shape (n : Nat) (g : List (List Int)) (r c v : Int)
    (h1 : g.length = n) (h2 : ∀ row ∈ g, row.length = n) (hr : r.toNat < g.length) :
    (setCell g r c v).length = n ∧ ∀ row ∈ setCell g r c v, row.length = n := by
  unfold setCell
  refine ⟨by rw [List.length_set]; exact h1, ?_⟩
  intro row hrow
  rcases List.mem_or_eq_of_mem_set hrow with hm | he
  · exact h2 row hm
  · rw [he, List.length_set]
    exact h2 _ (getD_mem_of_lt g [] r.toNat hr)

theorem gridValG_replicate (n : Nat) (r c : Int) :
    gridValG (List.replicate n (List.replicate n (0 : Int))) r c = 0 := by
  unfold gridValG
  by_cases hr : r.toNat < n
  · have h1 : (List.replicate n (List.replicate n (0 : Int))).getD r.toNat [] =
        List.replicate n (0 : Int) := by
      rw [List.getD_eq_getElem?_getD, List.getElem?_replicate]
      rw [if_pos hr]
      rfl
    rw [h1]
    by_cases hc : c.toNat < n
    · rw [List.getD_eq_getElem?_getD, List.getElem?_replicate, if_pos hc]
      rfl
    · exact List.getD_eq_default _ _ (by simpa using hc)
  · have h1 : (List.replicate n (List.replicate n (0 : Int))).getD r.toNat [] = [] :=
      List.getD_eq_default _ _ (by simpa using hr)
    rw [h1]
    rfl

theorem grid_with_clues_eq (n : Nat) (path : List Coord) (S : List Int) :
    _grid_with_clues_from_path n path S =
      (List.enumFrom 0 path).foldl (clueWrite S)
        (List.replicate n (List.replicate n 0)) := rfl

theorem clueWrite_shape (n : Nat) (S : List Int) (g : List (List Int)) (p : Nat × Coord)
    (h1 : g.length = n) (h2 : ∀ row ∈ g, row.length = n) (hib : inB n p.2.1 p.2.2 = true) :
    (clueWrite S g p).length = n ∧ ∀ row ∈ clueWrite S g p, row.length = n := by
  unfold clueWrite
  split
  · refine setCell_shape n g p.2.1 p.2.2 _ h1 h2 ?_
    unfold inB at hib
    simp only [Bool.and_eq_true, decide_eq_true_eq] at hib
    rw [h1]
    omega
  · exact ⟨h1, h2⟩

theorem foldl_clueWrite_shape (n : Nat) (S : List Int) :
    ∀ (ps : List (Nat × Coord)) (g : List (List Int)),
      g.length = n → (∀ row ∈ g, row.length = n) →
      (∀ x ∈ ps, inB n x.2.1 x.2.2 = true) →
      (ps.foldl (clueWrite S) g).length = n ∧
        ∀ row ∈ ps.foldl (clueWrite S) g, row.length = n
  | [], g, h1, h2, _ => ⟨h1, h2⟩
  | p :: ps, g, h1, h2, hin => by
    rw [List.foldl_cons]
    obtain ⟨g1, g2⟩ := clueWrite_shape n S g p h1 h2 (hin p (List.mem_cons_self _ _))
    exact foldl_clueWrite_shape n S ps _ g1 g2 (fun x hx => hin x (List.mem_cons_of_mem _ hx))

theorem foldl_clueWrite_untouched (n : Nat) (S : List Int) :
    ∀ (ps : List (Nat × Coord)) (g : List (List Int)) (r c : Int),
      (∀ x ∈ ps, x.2 ≠ (r, c)) →
      (∀ x ∈ ps, 0 ≤ x.2.1 ∧ 0 ≤ x.2.2) → 0 ≤ r → 0 ≤ c →
      gridValG (ps.foldl (clueWrite S) g) r c = gridValG g r c
  | [], _, _, _, _, _, _, _ => rfl
  | p :: ps, g, r, c, hne, hnn, hr, hc => by
    rw [List.foldl_cons]
    rw [foldl_clueWrite_untouched n S ps _ r c
      (fun x hx => hne x (List.mem_cons_of_mem _ hx))
      (fun x hx => hnn x (List.mem_cons_of_mem _ hx)) hr hc]
    unfold clueWrite
    split
    · refine gridValG_setCell_other g p.2.1 p.2.2 _ r c ?_
      obtain ⟨hx1, hx2⟩ := hnn p (List.mem_cons_self _ _)
      have hpne := hne p (List.mem_cons_self _ _)
      by_cases h1 : p.2.1 = r
      · right
        intro hco
        apply hpne
        have h2 : p.2.2 = c := by omega
        rw [Prod.ext_iff]
        exact ⟨h1, h2⟩
      · left
        omega
    · rfl

theorem foldl_clueWrite_val (n : Nat) (S : List Int) :
    ∀ (ps : List Coord) (j : Nat) (g : List (List Int)),
      g.length = n → (∀ row ∈ g, row.length = n) →
      (∀ x ∈ ps, inB n x.1 x.2 = true) → ps.Nodup →
      ∀ i, i < ps.length →
        gridValG ((List.enumFrom j ps).foldl (clueWrite S) g)
            (ps.getD i (0, 0)).1 (ps.getD i (0, 0)).2 =
          if S.contains (((j + i : Nat) : Int) + 1) then ((j + i : Nat) : Int) + 1
          else gridValG g (ps.getD i (0, 0)).1 (ps.getD i (0, 0)).2
  | [], _, _, _, _, _, _, i, hi => by simp at hi
  | x :: ps, j, g, h1, h2, hin, hnd, i, hi => by
    have hxib : inB n x.1 x.2 = true := hin x (List.mem_cons_self _ _)
    have hxb : 0 ≤ x.1 ∧ x.1 < (n : Int) ∧ 0 ≤ x.2 ∧ x.2 < (n : Int) := by
      unfold inB at hxib
      simp only [Bool.and_eq_true, decide_eq_true_eq] at hxib
      exact ⟨hxib.1.1.1, hxib.1.1.2, hxib.1.2, hxib.2⟩
    have henum : List.enumFrom j (x :: ps) = (j, x) :: List.enumFrom (j + 1) ps := rfl
    rw [henum, List.foldl_cons]
    have hg1 := clueWrite_shape n S g (j, x) h1 h2 hxib
    cases i with
    | zero =>
      have hnotin : ∀ y ∈ List.enumFrom (j + 1) ps, y.2 ≠ (x.1, x.2) := by
        intro y hy hco
        have hy2 : y.2 ∈ ps := by
          have h := List.enumFrom_map_snd (j + 1) ps
          rw [← h]
          exact List.mem_map.mpr ⟨y, hy, rfl⟩
        have hxps : x ∉ ps := (List.nodup_cons.mp hnd).1
        apply hxps
        have hxx : y.2 = x := by
          rw [hco]
        rw [← hxx]
        exact hy2
      have hnn : ∀ y ∈ List.enumFrom (j + 1) ps, 0 ≤ y.2.1 ∧ 0 ≤ y.2.2 := by
        intro y hy
        have hy2 : y.2 ∈ ps := by
          have h := List.enumFrom_map_snd (j + 1) ps
          rw [← h]
          exact List.mem_map.mpr ⟨y, hy, rfl⟩
        have hib := hin y.2 (List.mem_cons_of_mem _ hy2)
        unfold inB at hib
        simp only [Bool.and_eq_true, decide_eq_true_eq] at hib
        exact ⟨hib.1.1.1, hib.1.2⟩
      simp only [List.getD_cons_zero]
      rw [foldl_clueWrite_untouched n S (List.enumFrom (j + 1) ps) _ x.1 x.2
        hnotin hnn hxb.1 hxb.2.2.1]
      unfold clueWrite
      simp only [Nat.add_zero]
      split
      · exact gridValG_setCell_self g x.1 x.2 _ (by rw [h1]; omega)
          (by rw [h2 _ (getD_mem_of_lt g [] x.1.toNat (by rw [h1]; omega))]; omega)
      · rfl
    | succ i' =>
      have hi' : i' < ps.length := by simpa using Nat.lt_of_succ_lt_succ hi
      simp only [List.getD_cons_succ]
      have hrec := foldl_clueWrite_val n S ps (j + 1) (clueWrite S g (j, x)) hg1.1 hg1.2
        (fun y hy => hin y (List.mem_cons_of_mem _ hy)) (List.nodup_cons.mp hnd).2 i' hi'
      have hcell : clueWrite S g (j, x) = g ∨
          gridValG (clueWrite S g (j, x)) (ps.getD i' (0, 0)).1 (ps.getD i' (0, 0)).2 =
            gridValG g (ps.getD i' (0, 0)).1 (ps.getD i' (0, 0)).2 := by
      -- the head write targets x, distinct from ps[i']
        unfold clueWrite
        split
        · right
          refine gridValG_setCell_other g x.1 x.2 _ _ _ ?_
          have hmem : ps.getD i' (0, 0) ∈ ps := getD_mem_of_lt ps (0, 0) i' hi'
          have hne : x ≠ ps.getD i' (0, 0) := by
            intro he
            exact (List.nodup_cons.mp hnd).1 (he ▸ hmem)
          have hib2 := hin _ (List.mem_cons_of_mem _ hmem)
          unfold inB at hib2
          simp only [Bool.and_eq_true, decide_eq_true_eq] at hib2
          by_cases hx1 : x.1 = (ps.getD i' (0, 0)).1
          · right
            intro hco
            apply hne
            have hx2 : x.2 = (ps.getD i' (0, 0)).2 := by omega
            rw [Prod.ext_iff]
            exact ⟨hx1, hx2⟩
          · left
            omega
        · left
          rfl
      have hidx : j + (i' + 1) = (j + 1) + i' := by omega
      rw [hidx]
      rcases hcell with he | he
      · rw [he] at hrec ⊢
        exact hrec
      · rw [hrec, he]

theorem aget_enum_map_of_getD :
    ∀ (l : List Int) (j i : Nat), l.Nodup → i < l.length →
      aget ((List.enumFrom j l).map (fun p => (p.2, (p.1 : Int) + 1))) (l.getD i 0) =
        some (((j + i : Nat) : Int) + 1)
  | [], _, _, _, hi => by simp at hi
  | x :: l, j, 0, _, _ => by
    have henum : List.enumFrom j (x :: l) = (j, x) :: List.enumFrom (j + 1) l := rfl
    rw [henum, List.map_cons, List.getD_cons_zero]
    exact aget_cons_self x ((j : Int) + 1) _
  | x :: l, j, i + 1, hnd, hi => by
    have henum : List.enumFrom j (x :: l) = (j, x) :: List.enumFrom (j + 1) l := rfl
    have hi' : i < l.length := by simpa using Nat.lt_of_succ_lt_succ hi
    rw [henum, List.map_cons, List.getD_cons_succ]
    have hne : l.getD i 0 ≠ x := by
      intro he
      exact (List.nodup_cons.mp hnd).1 (he ▸ getD_mem_of_lt l 0 i hi')
    rw [aget_cons_ne x ((j : Int) + 1) _ _ (Ne.symm hne)]
    rw [aget_enum_map_of_getD l (j + 1) i (List.nodup_cons.mp hnd).2 hi']
    congr 2
    omega

theorem aget_enum_map_none :
    ∀ (l : List Int) (j : Nat) (v : Int), v ∉ l →
      aget ((List.enumFrom j l).map (fun p => (p.2, (p.1 : Int) + 1))) v = none
  | [], _, _, _ => rfl
  | x :: l, j, v, hv => by
    have henum : List.enumFrom j (x :: l) = (j, x) :: List.enumFrom (j + 1) l := rfl
    have hne : v ≠ x := fun he => hv (he ▸ List.mem_cons_self _ _)
    rw [henum, List.map_cons, aget_cons_ne x ((j : Int) + 1) _ _ (Ne.symm hne)]
    exact aget_enum_map_none l (j + 1) v (fun h => hv (List.mem_cons_of_mem _ h))

theorem getLast_getD_mem {α : Type} (l : List α) (d : α) (h : l ≠ []) :
    l.getLast?.getD d ∈ l := by
  have hlen : 0 < l.length := List.length_pos.mpr h
  rw [List.getLast?_eq_getElem?, List.getElem?_eq_getElem (by omega)]
  simp only [Option.getD_some]
  exact List.getElem_mem _

theorem sorted_getD_zero_le (l : List Int) (h : l.Pairwise (· ≤ ·)) :
    ∀ x ∈ l, l.getD 0 0 ≤ x := by
  intro x hx
  cases l with
  | nil => simp at hx
  | cons a t =>
    rw [List.getD_cons_zero]
    rcases List.mem_cons.mp hx with rfl | hm
    · exact le_refl x
    · exact List.rel_of_pairwise_cons h hm

theorem sorted_le_getLast :
    ∀ (l : List Int), l.Pairwise (· ≤ ·) → ∀ x ∈ l, x ≤ l.getLast?.getD 0
  | [] => by
    intro _ x hx
    simp at hx
  | [a] => by
    intro _ x hx
    obtain rfl : x = a := by simpa using hx
    simp
  | a :: b :: t => by
    intro h x hx
    rw [List.getLast?_cons_cons]
    rcases List.mem_cons.mp hx with rfl | hm
    · have hab : x ≤ b := List.rel_of_pairwise_cons h (List.mem_cons_self _ _)
      exact le_trans hab (sorted_le_getLast (b :: t) (List.pairwise_cons.mp h).2 b
        (List.mem_cons_self _ _))
    · exact sorted_le_getLast (b :: t) (List.pairwise_cons.mp h).2 x hm

theorem getD_map_toNat (l : List Int) (i : Nat) (hi : i < l.length) :
    (l.map Int.toNat).getD i 0 = (l.getD i 0).toNat := by
  rw [List.getD_eq_getElem?_getD, List.getElem?_map, List.getElem?_eq_getElem hi,
    List.getD_eq_getElem?_getD, List.getElem?_eq_getElem hi]
  rfl

theorem getD_map_range {α : Type} (N i : Nat) (f : Nat → α) (d : α) (hi : i < N) :
    ((List.range N).map f).getD i d = f i := by
  rw [List.getD_eq_getElem?_getD, List.getElem?_map, List.getElem?_range hi]
  rfl

theorem create_display_len (g : List (List Int)) (S : List Int) :
    (_create_display_grid g S).1.length = g.length := by
  unfold _create_display_grid
  simp

theorem gridValG_create_display (g : List (List Int)) (S : List Int) (r c : Int)
    (hr : 0 ≤ r) (hrn : r < (g.length : Int)) (hc : 0 ≤ c) (hcn : c < (g.length : Int)) :
    gridValG (_create_display_grid g S).1 r c =
      (aget ((List.insertionSort (fun a b => a ≤ b) S).enum.map
        (fun p => (p.2, (p.1 : Int) + 1))) (gridValG g r c)).getD 0 := by
  have h1 : (_create_display_grid g S).1 = (List.range g.length).map
      (fun r' : Nat => (List.range g.length).map (fun c' : Nat =>
        match aget ((List.insertionSort (fun a b => a ≤ b) S).enum.map
            (fun p => (p.2, (p.1 : Int) + 1))) (gridValG g (r' : Int) (c' : Int)) with
        | some dv => dv
        | none => 0)) := rfl
  have hrlt : r.toNat < g.length := by omega
  have hclt : c.toNat < g.length := by omega
  have hL : gridValG (_create_display_grid g S).1 r c =
      ((_create_display_grid g S).1.getD r.toNat []).getD c.toNat 0 := rfl
  rw [hL, h1, getD_map_range _ _ _ _ hrlt]
  rw [getD_map_range _ _ _ _ hclt]
  rw [Int.toNat_of_nonneg hr, Int.toNat_of_nonneg hc]
  generalize aget ((List.insertionSort (fun a b => a ≤ b) S).enum.map
      (fun p => (p.2, (p.1 : Int) + 1))) (gridValG g r c) = A
  cases A with
  | none => rfl
  | some dv => rfl

theorem mem_sawNeighbors (n : Nat) (diag : Bool)
    (shuffle : List Coord → List Coord → List Coord) (path : List Coord) (r c : Int)
    (hperm : ∀ p l, (shuffle p l).Perm l) (x : Coord)
    (hx : x ∈ sawNeighbors n diag shuffle path r c) :
    (neighborsG n r c diag).contains x = true ∧ x ∉ path ∧ inB n x.1 x.2 = true := by
  unfold sawNeighbors at hx
  rw [(List.perm_insertionSort _ _).mem_iff, (hperm path _).mem_iff,
    List.mem_filterMap] at hx
  obtain ⟨d, hd, hcond⟩ := hx
  by_cases hb : (inB n (r + d.1) (c + d.2) && !path.contains (r + d.1, c + d.2)) = true
  · rw [if_pos hb] at hcond
    obtain rfl := Option.some.inj hcond
    rw [Bool.and_eq_true] at hb
    obtain ⟨hib, hnc⟩ := hb
    have hm : (r + d.1, c + d.2) ∈ neighborsG n r c diag := by
      unfold neighborsG
      exact List.mem_filterMap.mpr ⟨d, hd, by rw [if_pos hib]⟩
    exact ⟨by simpa using hm, by simpa using hnc, hib⟩
  · rw [if_neg hb] at hcond
    exact absurd hcond (by simp)

/-- Soundness of the generator's self-avoiding-walk DFS: a returned walk
extends the seed by fresh in-bounds cells, each adjacent to its predecessor,
and covers exactly `n * n` cells. -/
theorem sawDfs_sound (n : Nat) (diag : Bool)
    (shuffle : List Coord → List Coord → List Coord) (clock : List Coord → Bool)
    (hperm : ∀ p l, (shuffle p l).Perm l) :
    ∀ (fuel : Nat) (path q : List Coord), path ≠ [] →
      sawDfs n diag shuffle clock fuel path = some q →
      ∃ ext, q = path ++ ext ∧ q.length = n * n ∧
        List.Chain' (fun a c => (neighborsG n a.1 a.2 diag).contains c = true)
          (path.getLast?.getD (0, 0) :: ext) ∧
        ∀ j, j < ext.length →
          ext.getD j (0, 0) ∉ path ++ ext.take j ∧
          inB n (ext.getD j (0, 0)).1 (ext.getD j (0, 0)).2 = true := by
  intro fuel
  induction fuel with
  | zero =>
    intro path q hne h
    exact absurd h (by simp [sawDfs])
  | succ fuel ih =>
    intro path q hne h
    rw [sawDfs] at h
    by_cases hl : (path.length == n * n) = true
    · rw [if_pos hl] at h
      obtain rfl : path = q := Option.some.inj h
      refine ⟨[], by simp, by simpa using hl, List.chain'_singleton _, ?_⟩
      intro j hj
      simp at hj
    · rw [if_neg hl] at h
      obtain ⟨nb, hmem, hrec⟩ := exists_of_findSome?_eq_some h
      obtain ⟨hadj, hfresh, hib⟩ := mem_sawNeighbors n diag shuffle path _ _ hperm nb hmem
      obtain ⟨ext', hq, hlen, hchain', hper'⟩ := ih (path ++ [nb]) q (by simp) hrec
      have hlast2 : (path ++ [nb]).getLast?.getD (0, 0) = nb := by simp
      refine ⟨nb :: ext', ?_, hlen, ?_, ?_⟩
      · rw [hq, ← List.append_cons]
      · rw [List.chain'_cons]
        rw [hlast2] at hchain'
        exact ⟨hadj, hchain'⟩
      · intro j hj
        cases j with
        | zero =>
          simp only [List.getD_cons_zero, List.take_zero, List.append_nil]
          exact ⟨hfresh, hib⟩
        | succ j' =>
          have hj' : j' < ext'.length := by simpa using Nat.lt_of_succ_lt_succ hj
          obtain ⟨hfr, hib'⟩ := hper' j' hj'
          simp only [List.getD_cons_succ, List.take_succ_cons]
          refine ⟨?_, hib'⟩
          rw [List.append_cons]
          exact hfr

theorem getLast_getD_eq_getD {α : Type} (l : List α) (d : α) :
    l.getLast?.getD d = l.getD (l.length - 1) d := by
  cases l with
  | nil => rfl
  | cons a t =>
    rw [List.getLast?_eq_getElem?, List.getD_eq_getElem?_getD]

/-- A display grid built by the generator from a full-coverage walk and a
nodup clue-step set inside `[1, n*n]` containing 1 and `n*n` is accepted by
the validator on that walk, whatever the board's mapping tables hold. -/
theorem built_puzzle_validates (n : Nat) (diag : Bool) (path : List Coord) (S : List Int)
    (hplen : path.length = n * n)
    (hpnd : path.Nodup)
    (hpb : ∀ x ∈ path, inB n x.1 x.2 = true)
    (hpch : List.Chain' (fun a c => (neighborsG n a.1 a.2 diag).contains c = true) path)
    (hSnd : S.Nodup)
    (hSb : ∀ x ∈ S, 1 ≤ x ∧ x ≤ (n : Int) * n)
    (hS1 : (1 : Int) ∈ S)
    (hSk : ((n : Int) * n) ∈ S)
    (d2s s2d : Option (List (Int × Int))) :
    validate_path ⟨(_create_display_grid (_grid_with_clues_from_path n path S) S).1,
      (n : Int) * n, diag, d2s, s2d⟩ path none = (true, "OK") := by
  set grid : List (List Int) := _grid_with_clues_from_path n path S with hgrid
  set dg : List (List Int) := (_create_display_grid grid S).1 with hdg
  set SS : List Int := List.insertionSort (fun a b => a ≤ b) S with hSS
  have hpermS : SS.Perm S := List.perm_insertionSort _ _
  have hSSnd : SS.Nodup := (hpermS.nodup_iff).mpr hSnd
  have hSSle : SS.Pairwise (· ≤ ·) := List.sorted_insertionSort _ _
  have hSSlt : SS.Pairwise (· < ·) := List.Sorted.lt_of_le hSSle hSSnd
  have hSSb : ∀ x ∈ SS, 1 ≤ x ∧ x ≤ (n : Int) * n := fun x hx => hSb x (hpermS.mem_iff.mp hx)
  have hSS1 : (1 : Int) ∈ SS := hpermS.mem_iff.mpr hS1
  have hSSk : ((n : Int) * n) ∈ SS := hpermS.mem_iff.mpr hSk
  have hSSne : SS ≠ [] := fun he => by simp [he] at hSS1
  have hplen' : (path.length : Int) = (n : Int) * n := by
    rw [hplen]
    push_cast
    ring
  have hgsh : grid.length = n ∧ ∀ row ∈ grid, row.length = n := by
    rw [hgrid, grid_with_clues_eq]
    refine foldl_clueWrite_shape n S _ _ (by simp)
      (by intro row hrow; rw [List.eq_of_mem_replicate hrow]; simp) ?_
    intro x hx
    have hx2 : x.2 ∈ path := by
      rw [← List.enumFrom_map_snd 0 path]
      exact List.mem_map.mpr ⟨x, hx, rfl⟩
    exact hpb _ hx2
  have hdgl : dg.length = n := by
    rw [hdg, create_display_len]
    exact hgsh.1
  have hval : ∀ i, i < path.length →
      gridValG grid (path.getD i (0, 0)).1 (path.getD i (0, 0)).2 =
        if S.contains ((i : Int) + 1) = true then (i : Int) + 1 else 0 := by
    intro i hi
    rw [hgrid, grid_with_clues_eq]
    have h := foldl_clueWrite_val n S path 0 (List.replicate n (List.replicate n 0))
      (by simp) (by intro row hrow; rw [List.eq_of_mem_replicate hrow]; simp) hpb hpnd i hi
    rw [h, gridValG_replicate]
    simp only [Nat.zero_add]
  have hdisp : ∀ i, i < path.length →
      gridValG dg (path.getD i (0, 0)).1 (path.getD i (0, 0)).2 =
        (aget (SS.enum.map (fun p => (p.2, (p.1 : Int) + 1)))
          (if S.contains ((i : Int) + 1) = true then (i : Int) + 1 else 0)).getD 0 := by
    intro i hi
    have hcell := getD_mem_of_lt path (0, 0) i hi
    have hib := hpb _ hcell
    unfold inB at hib
    simp only [Bool.and_eq_true, decide_eq_true_eq] at hib
    rw [hdg, gridValG_create_display grid S _ _ hib.1.1.1
      (by rw [hgsh.1]; exact hib.1.1.2) hib.1.2 (by rw [hgsh.1]; exact hib.2)]
    rw [hval i hi, ← hSS]
  set ts : List Nat := SS.map Int.toNat with hts
  have htslen : ts.length = SS.length := by
    rw [hts]
    simp
  have hbounds : ∀ c ∈ path, inB dg.length c.1 c.2 = true := by
    rw [hdgl]
    exact hpb
  have hchain : List.Chain'
      (fun a c => (neighborsG dg.length a.1 a.2 diag).contains c = true) path := by
    rw [hdgl]
    exact hpch
  have htsne : ts ≠ [] := by
    intro hcon
    have h1 := congrArg List.length hcon
    rw [htslen] at h1
    simp at h1
    exact absurd (h1 ▸ hSS1) (by simp)
  have htssort : ts.Pairwise (· < ·) := by
    rw [hts, List.pairwise_map]
    refine List.Pairwise.imp_of_mem ?_ hSSlt
    intro a b ha hb hlt
    have h1 := (hSSb a ha).1
    omega
  have htub : ∀ x ∈ ts, x ≤ path.length := by
    intro x hx
    rw [hts] at hx
    obtain ⟨y, hy, rfl⟩ := List.mem_map.mp hx
    have h1 := (hSSb y hy).2
    rw [← hplen'] at h1
    omega
  have hfirst : ts.getD 0 0 = 1 := by
    have hSS0 : SS.getD 0 0 = 1 := by
      have hle := sorted_getD_zero_le SS hSSle 1 hSS1
      have hmem0 : SS.getD 0 0 ∈ SS := getD_mem_of_lt SS 0 0 (List.length_pos.mpr hSSne)
      have hge := (hSSb _ hmem0).1
      omega
    rw [hts, getD_map_toNat SS 0 (List.length_pos.mpr hSSne), hSS0]
    rfl
  have hlast : ts.getLast?.getD 0 = path.length := by
    rw [getLast_getD_eq_getD, htslen, hts,
      getD_map_toNat SS _ (by have := List.length_pos.mpr hSSne; omega)]
    have hgl : SS.getD (SS.length - 1) 0 = (n : Int) * n := by
      rw [← getLast_getD_eq_getD]
      exact le_antisymm ((hSSb _ (getLast_getD_mem SS 0 hSSne)).2)
        (sorted_le_getLast SS hSSle _ hSSk)
    rw [hgl, hplen, ← Nat.cast_mul, Int.toNat_natCast]
  have hclue : ∀ j, j < ts.length →
      gridValG dg ((path.getD (ts.getD j 0 - 1) (0, 0)).1)
        ((path.getD (ts.getD j 0 - 1) (0, 0)).2) = ((j : Nat) : Int) + 1 := by
    intro j hj
    rw [htslen] at hj
    have htsj : ts.getD j 0 = (SS.getD j 0).toNat := by
      rw [hts, getD_map_toNat SS j hj]
    have hsmem : SS.getD j 0 ∈ SS := getD_mem_of_lt SS 0 j hj
    have hsb := hSSb _ hsmem
    have hi : (SS.getD j 0).toNat - 1 < path.length := by
      have h2 := hsb.2
      rw [← hplen'] at h2
      have h1 := hsb.1
      omega
    rw [htsj, hdisp ((SS.getD j 0).toNat - 1) hi]
    have hsi : (((SS.getD j 0).toNat - 1 : Nat) : Int) + 1 = SS.getD j 0 := by
      have h1 := hsb.1
      omega
    rw [hsi]
    rw [if_pos (by simpa using hpermS.mem_iff.mp hsmem : S.contains (SS.getD j 0) = true)]
    have hag := aget_enum_map_of_getD SS 0 j hSSnd hj
    rw [show SS.enum = List.enumFrom 0 SS from rfl, hag]
    simp
  have hblank : ∀ m, m < path.length → (m + 1) ∉ ts →
      gridValG dg ((path.getD m (0, 0)).1) ((path.getD m (0, 0)).2) = 0 := by
    intro m hm hnot
    rw [hdisp m hm]
    by_cases hc : S.contains ((m : Int) + 1) = true
    · exfalso
      apply hnot
      have hmemS : ((m : Int) + 1) ∈ SS := hpermS.mem_iff.mpr (by simpa using hc)
      rw [hts]
      refine List.mem_map.mpr ⟨(m : Int) + 1, hmemS, ?_⟩
      omega
    · rw [if_neg hc, show SS.enum = List.enumFrom 0 SS from rfl,
        aget_enum_map_none SS 0 0 ?_]
      · rfl
      · intro h0
        have h1 := (hSSb 0 h0).1
        omega
  exact validateCore_accepts dg ((n : Int) * n) diag path ts hplen' hpnd hbounds hchain
    htsne htssort htub hfirst hlast hclue hblank

theorem pyTake_subset {α : Type} (m : Int) (l : List α) : ∀ x ∈ pyTake m l, x ∈ l := by
  intro x hx
  unfold pyTake at hx
  split at hx
  · exact List.take_subset _ _ hx
  · exact List.take_subset _ _ hx

/-- The clue set `{1, k} ∪ extras` assembled by both generator paths is a
duplicate-free subset of `[1, k]` containing `1` and `k`. -/
theorem clue_set_inv (k : Int) (hk : 1 ≤ k) (l : List Int)
    (hl : ∀ x ∈ l, 2 ≤ x ∧ x < k) :
    (l.foldl sinsert (sinsert (sinsert [] 1) k)).Nodup ∧
    (∀ x ∈ l.foldl sinsert (sinsert (sinsert [] 1) k), 1 ≤ x ∧ x ≤ k) ∧
    (1 : Int) ∈ l.foldl sinsert (sinsert (sinsert [] 1) k) ∧
    k ∈ l.foldl sinsert (sinsert (sinsert [] 1) k) := by
  have hbase_nd : (sinsert (sinsert [] 1) k).Nodup :=
    nodup_sinsert _ _ (nodup_sinsert _ _ List.nodup_nil)
  have hbase_mem : ∀ x ∈ sinsert (sinsert [] 1) k, 1 ≤ x ∧ x ≤ k := by
    intro x hx
    rw [mem_sinsert, mem_sinsert] at hx
    rcases hx with (hx | rfl) | rfl
    · simp at hx
    · omega
    · omega
  refine ⟨nodup_foldl_sinsert l _ hbase_nd, ?_, ?_, ?_⟩
  · intro x hx
    rw [mem_foldl_sinsert] at hx
    rcases hx with hx | hx
    · exact hbase_mem x hx
    · have h := hl x hx
      omega
  · rw [mem_foldl_sinsert]
    left
    rw [mem_sinsert, mem_sinsert]
    exact Or.inl (Or.inr rfl)
  · rw [mem_foldl_sinsert]
    left
    rw [mem_sinsert]
    exact Or.inr rfl

/-- Whatever clue set the densification loop ends up accepting, the returned
puzzle is the display grid built from it over the unchanged walk, and that
clue set keeps the invariant of the starting one. -/
theorem densify_round_trip (n : Nat) (diag : Bool) (k : Int) (path : List Coord)
    (maxc : Int) (clock : Nat → List Coord → Bool) :
    ∀ (fuel : Nat) (cs more : List Int) (round : Nat)
      (dg : List (List Int)) (p : List Coord) (m : List (Int × Int)),
      cs.Nodup → (∀ x ∈ cs, 1 ≤ x ∧ x ≤ k) → (1 : Int) ∈ cs → k ∈ cs →
      (∀ x ∈ more, 1 ≤ x ∧ x ≤ k) →
      densify n diag k path maxc clock fuel cs more round = some (dg, p, m) →
      p = path ∧ ∃ S : List Int, S.Nodup ∧ (∀ x ∈ S, 1 ≤ x ∧ x ≤ k) ∧
        (1 : Int) ∈ S ∧ k ∈ S ∧
        dg = (_create_display_grid (_grid_with_clues_from_path n path S) S).1 := by
  intro fuel
  induction fuel with
  | zero =>
    intro cs more round dg p m _ _ _ _ _ h
    exact absurd h (by simp [densify])
  | succ fuel ih =>
    intro cs more round dg p m hnd hb h1 hk2 hmore h
    rw [densify] at h
    simp only [] at h
    split at h
    · have h2 := Option.some.inj h
      simp only [Prod.mk.injEq] at h2
      exact ⟨h2.2.1.symm, cs, hnd, hb, h1, hk2, h2.1.symm⟩
    · split at h
      · exact absurd h (by simp)
      · rename_i hcnt hgrow
        have hmne : more ≠ [] := by
          intro he
          rw [he] at hgrow
          simp at hgrow
        have hx0 := hmore _ (getLast_getD_mem more 0 hmne)
        exact ih (sinsert cs (more.getLast?.getD 0)) more.dropLast (round + 1) dg p m
          (nodup_sinsert _ _ hnd)
          (fun x hx => by
            rw [mem_sinsert] at hx
            rcases hx with hx | rfl
            · exact hb x hx
            · exact hx0)
          ((mem_sinsert _ _ _).mpr (Or.inl h1))
          ((mem_sinsert _ _ _).mpr (Or.inl hk2))
          (fun x hx => hmore x (List.dropLast_subset _ hx))
          h

theorem genAttempts_round_trip (n : Nat) (diag : Bool) (cfg : GenConfig) (orc : GenOracles)
    (hstart : ∀ a, inB n (orc.startCell a).1 (orc.startCell a).2 = true)
    (hsaw : ∀ a p l, (orc.sawShuffle a p l).Perm l)
    (hex : ∀ a l, (orc.extrasShuffle a l).Perm l)
    (hmore : ∀ a l, (orc.moreShuffle a l).Perm l) :
    ∀ (fuel attempt : Nat) (dg : List (List Int)) (p : List Coord) (m : List (Int × Int))
      (d2s s2d : Option (List (Int × Int))),
      genAttempts n diag cfg orc fuel attempt = some (dg, p, m) →
      validate_path ⟨dg, (n : Int) * n, diag, d2s, s2d⟩ p none = (true, "OK") := by
  intro fuel
  induction fuel with
  | zero =>
    intro attempt dg p m d2s s2d h
    exact absurd h (by simp [genAttempts])
  | succ fuel ih =>
    intro attempt dg p m d2s s2d h
    rw [genAttempts] at h
    split at h
    · exact ih _ dg p m d2s s2d h
    · rename_i path hsawok
      simp only [] at h
      split at h
      · rename_i res hdens
        have hres := Option.some.inj h
        subst hres
        have hsawok' : sawDfs n diag (orc.sawShuffle attempt) (fun _ => false) (n * n + 1)
            [orc.startCell attempt] = some path := hsawok
        obtain ⟨ext, hq, hqlen, hchain, hper⟩ :=
          sawDfs_sound n diag (orc.sawShuffle attempt) (fun _ => false) (hsaw attempt)
            (n * n + 1) [orc.startCell attempt] path (by simp) hsawok'
        have hpnd : path.Nodup := by
          rw [hq]
          exact nodup_of_fresh (0, 0) ext [orc.startCell attempt] (List.nodup_singleton _)
            (fun j hj => (hper j hj).1)
        have hpb : ∀ x ∈ path, inB n x.1 x.2 = true := by
          intro c hc
          rw [hq] at hc
          rcases List.mem_append.mp hc with h1 | h2
          · obtain rfl : c = orc.startCell attempt := by simpa using h1
            exact hstart attempt
          · obtain ⟨i, hi, hci⟩ := List.mem_iff_getElem.mp h2
            have hgd : ext.getD i (0, 0) = c := by
              rw [List.getD_eq_getElem?_getD, List.getElem?_eq_getElem hi]
              exact hci
            have hib := (hper i hi).2
            rw [hgd] at hib
            exact hib
        have hpch : List.Chain'
            (fun a c => (neighborsG n a.1 a.2 diag).contains c = true) path := by
          rw [hq]
          have hgl : ([orc.startCell attempt] : List Coord).getLast?.getD (0, 0) =
              orc.startCell attempt := by simp
          rw [hgl] at hchain
          exact hchain
        have hn1 : 1 ≤ n := by
          rcases Nat.eq_zero_or_pos n with h0 | hp1
          · exfalso
            have hlq := congrArg List.length hq
            simp only [List.length_append, List.length_singleton] at hlq
            rw [hqlen, h0] at hlq
            omega
          · exact hp1
        have hk1 : (1 : Int) ≤ (n : Int) * n := by
          have hone : (1 : Int) ≤ (n : Int) := by exact_mod_cast hn1
          nlinarith
        have hextras : ∀ x ∈ pyTake (cfg.CLUE_START - 2)
            (orc.extrasShuffle attempt (intRange 2 ((n : Int) * n))),
            2 ≤ x ∧ x < (n : Int) * n := by
          intro x hx
          have hx2 : x ∈ intRange 2 ((n : Int) * n) :=
            (hex attempt _).mem_iff.mp (pyTake_subset _ _ x hx)
          exact (mem_intRange _ _ _).mp hx2
        have hcs := clue_set_inv ((n : Int) * n) hk1 _ hextras
        have hmoreb : ∀ x ∈ orc.moreShuffle attempt
            ((intRange 2 ((n : Int) * n)).filter (fun i =>
              !((pyTake (cfg.CLUE_START - 2)
                (orc.extrasShuffle attempt (intRange 2 ((n : Int) * n)))).foldl sinsert
                  (sinsert (sinsert [] 1) ((n : Int) * n))).contains i)),
            1 ≤ x ∧ x ≤ (n : Int) * n := by
          intro x hx
          have hx2 := (hmore attempt _).mem_iff.mp hx
          have hx3 := (List.mem_filter.mp hx2).1
          have hx4 := (mem_intRange _ _ _).mp hx3
          omega
        obtain ⟨hp, S, hSnd, hSb, hS1, hSk, hdgS⟩ :=
          densify_round_trip n diag ((n : Int) * n) path (get_clue_bounds n).2
            (orc.countClock attempt) _ _ _ _ dg p m
            hcs.1 hcs.2.1 hcs.2.2.1 hcs.2.2.2 hmoreb hdens
        subst hp
        rw [hdgS]
        exact built_puzzle_validates n diag p S hqlen hpnd hpb hpch hSnd hSb hS1 hSk d2s s2d
      · exact ih _ dg p m d2s s2d h

theorem fast_round_trip (n : Nat) (diag : Bool) (cfg : GenConfig) (orc : GenOracles)
    (hstart : ∀ a, inB n (orc.startCell a).1 (orc.startCell a).2 = true)
    (hsaw : ∀ a p l, (orc.sawShuffle a p l).Perm l)
    (hex : ∀ a l, (orc.extrasShuffle a l).Perm l) :
    ∀ (fuel attempt : Nat) (dg : List (List Int)) (p : List Coord) (m : List (Int × Int))
      (d2s s2d : Option (List (Int × Int))),
      _generate_puzzle_fast_go n diag orc fuel attempt = some (dg, p, m) →
      validate_path ⟨dg, (n : Int) * n, diag, d2s, s2d⟩ p none = (true, "OK") := by
  intro fuel
  induction fuel with
  | zero =>
    intro attempt dg p m d2s s2d h
    exact absurd h (by simp [_generate_puzzle_fast_go])
  | succ fuel ih =>
    intro attempt dg p m d2s s2d h
    rw [_generate_puzzle_fast_go] at h
    split at h
    · exact ih _ dg p m d2s s2d h
    · rename_i path hsawok
      simp only [] at h
      have h2 := Option.some.inj h
      simp only [Prod.mk.injEq] at h2
      obtain ⟨hdg2, hp2, -⟩ := h2
      have hsawok' : sawDfs n diag (orc.sawShuffle attempt) (fun _ => false) (n * n + 1)
          [orc.startCell attempt] = some path := hsawok
      obtain ⟨ext, hq, hqlen, hchain, hper⟩ :=
        sawDfs_sound n diag (orc.sawShuffle attempt) (fun _ => false) (hsaw attempt)
          (n * n + 1) [orc.startCell attempt] path (by simp) hsawok'
      have hpnd : path.Nodup := by
        rw [hq]
        exact nodup_of_fresh (0, 0) ext [orc.startCell attempt] (List.nodup_singleton _)
          (fun j hj => (hper j hj).1)
      have hpb : ∀ x ∈ path, inB n x.1 x.2 = true := by
        intro c hc
        rw [hq] at hc
        rcases List.mem_append.mp hc with h1 | h2
        · obtain rfl : c = orc.startCell attempt := by simpa using h1
          exact hstart attempt
        · obtain ⟨i, hi, hci⟩ := List.mem_iff_getElem.mp h2
          have hgd : ext.getD i (0, 0) = c := by
            rw [List.getD_eq_getElem?_getD, List.getElem?_eq_getElem hi]
            exact hci
          have hib := (hper i hi).2
          rw [hgd] at hib
          exact hib
      have hpch : List.Chain'
          (fun a c => (neighborsG n a.1 a.2 diag).contains c = true) path := by
        rw [hq]
        have hgl : ([orc.startCell attempt] : List Coord).getLast?.getD (0, 0) =
            orc.startCell attempt := by simp
        rw [hgl] at hchain
        exact hchain
      have hn1 : 1 ≤ n := by
        rcases Nat.eq_zero_or_pos n with h0 | hp1
        · exfalso
          have hlq := congrArg List.length hq
          simp only [List.length_append, List.length_singleton] at hlq
          rw [hqlen, h0] at hlq
          omega
        · exact hp1
      have hk1 : (1 : Int) ≤ (n : Int) * n := by
        have hone : (1 : Int) ≤ (n : Int) := by exact_mod_cast hn1
        nlinarith
      have hextras : ∀ x ∈ pyTake ((get_clue_bounds n).1 - 2)
          (orc.extrasShuffle attempt (intRange 2 ((n : Int) * n))),
          2 ≤ x ∧ x < (n : Int) * n := by
        intro x hx
        have hx2 : x ∈ intRange 2 ((n : Int) * n) :=
          (hex attempt _).mem_iff.mp (pyTake_subset _ _ x hx)
        exact (mem_intRange _ _ _).mp hx2
      have hcs := clue_set_inv ((n : Int) * n) hk1 _ hextras
      subst hp2
      rw [← hdg2]
      exact built_puzzle_validates n diag path _ hqlen hpnd hpb hpch
        hcs.1 hcs.2.1 hcs.2.2.1 hcs.2.2.2 d2s s2d

/-- Claim C2 (round-trip): every puzzle `generate_unique_puzzle` returns —
under the modeled randomness (an in-bounds start cell and shuffles that
permute their input) — is accepted by `validate_path` on a Board built from
the returned display grid with `k = n*n` and the same `diag`, whatever
mapping tables that board carries.  Both the fast and the unique-puzzle
paths are covered. -/
theorem generate_round_trip (n : Nat) (diag : Bool) (cfg : GenConfig) (orc : GenOracles)
    (hstart : ∀ a, inB n (orc.startCell a).1 (orc.startCell a).2 = true)
    (hsaw : ∀ a p l, (orc.sawShuffle a p l).Perm l)
    (hex : ∀ a l, (orc.extrasShuffle a l).Perm l)
    (hmore : ∀ a l, (orc.moreShuffle a l).Perm l)
    (dg : List (List Int)) (p : List Coord) (m : List (Int × Int))
    (d2s s2d : Option (List (Int × Int)))
    (hgen : generate_unique_puzzle n diag cfg orc = some (dg, p, m)) :
    validate_path ⟨dg, (n : Int) * n, diag, d2s, s2d⟩ p none = (true, "OK") := by
  rw [generate_unique_puzzle] at hgen
  split at hgen
  · rw [_generate_puzzle_fast] at hgen
    exact fast_round_trip n diag cfg orc hstart hsaw hex _ _ dg p m d2s s2d hgen
  · exact genAttempts_round_trip n diag cfg orc hstart hsaw hex hmore _ _ dg p m d2s s2d hgen

/-- Witness for C2 at n = 2 with degenerate randomness and the test-script
clue budget: the generated 2-by-2 puzzle's witness path is accepted by the
validator on the returned display grid. -/
theorem generate_round_trip_witness :
    validate_path ⟨[[1, 4], [2, 3]], ((2 : Nat) : Int) * ((2 : Nat) : Int), false, none, none⟩
      [(0, 0), (1, 0), (1, 1), (0, 1)] none = (true, "OK") :=
  generate_round_trip 2 false ⟨40, false, 10, 4⟩ idOracles
    (fun _ => rfl) (fun _ _ l => List.Perm.refl l) (fun _ l => List.Perm.refl l)
    (fun _ l => List.Perm.refl l) [[1, 4], [2, 3]] [(0, 0), (1, 0), (1, 1), (0, 1)]
    [(1, 1), (2, 2), (3, 3), (4, 4)] none none (by decide)

/-- Claim C8 (amended): for a board whose `display_to_step` dict is *truthy*
(non-None and non-empty — the source tests truthiness, not non-None-ness)
and a grid cell holding a positive display value that is not a key of the
dict (or maps to 0/None), `Board.givens` omits the cell, and the solver and
counter treat it exactly like a blank cell: its `clueSkip` filter never
fires, and blanking the cell changes neither `givens`, `solve_backtracking`
nor `count_solutions`. -/
theorem unmapped_display_cell_unconstrained (b : Board) (cell : Coord)
    (htruthy : dictTruthy b.display_to_step = true)
    (hpos : 0 < gridValG b.grid cell.1 cell.2)
    (hfalsy : optTruthy (aget (b.display_to_step.getD [])
      (gridValG b.grid cell.1 cell.2)) = false) :
    Board.givens b = Board.givens (zeroCell b cell) ∧
    (∀ s : Int, aget (Board.givens b) s ≠ some cell) ∧
    (∀ step : Int, clueSkip b cell step = false) ∧
    (∀ (diag : Bool) (timeUp : List Coord → Bool),
      solve_backtracking b diag timeUp = solve_backtracking (zeroCell b cell) diag timeUp) ∧
    (∀ (diag : Bool) (limit : Int) (timeUp : List Coord → Bool),
      count_solutions b diag limit timeUp =
        count_solutions (zeroCell b cell) diag limit timeUp) := by
  have hskip : ∀ (x : Coord) (s : Int), clueSkip b x s = clueSkip (zeroCell b cell) x s :=
    fun x s => (clueSkip_zeroCell b cell htruthy hfalsy x s).symm
  refine ⟨(givens_zeroCell b cell htruthy hfalsy).symm,
    givens_not_cell b cell htruthy hfalsy, ?_, ?_, ?_⟩
  · intro step
    have hd : (gridValG b.grid cell.1 cell.2 != 0) = true := by
      simp only [bne_iff_ne, ne_eq]
      omega
    simp [clueSkip, hd, htruthy, hfalsy]
  · intro diag timeUp
    unfold solve_backtracking
    rw [givens_zeroCell b cell htruthy hfalsy, zeroCell_n]
    apply findSome?_ext
    intro s
    have h := solveDfs_congr b (zeroCell b cell) rfl (zeroCell_n b cell).symm hskip
      diag (Board.givens b) timeUp (b.k.toNat + 2) 2 [s]
    exact h
  · intro diag limit timeUp
    unfold count_solutions
    rw [givens_zeroCell b cell htruthy hfalsy, zeroCell_n]
    have hc := countDfs_congr b (zeroCell b cell) rfl (zeroCell_n b cell).symm hskip
      diag (Board.givens b) limit timeUp
    refine congrArg Prod.snd ?_
    apply List.foldl_ext
    intro acc s _
    rw [hc]
    rfl

/-- Witness for amended C8 at a concrete board: display value 2 at (0,0) is
not a key of the truthy dict `{1: 4}`; the cell is absent from `givens`,
never filtered by `clueSkip`, and blanking it is invisible to the solver and
counter. -/
theorem unmapped_display_witness :
    Board.givens ⟨[[2, 0], [0, 1]], 4, false, some [(1, 4)], none⟩ =
      Board.givens (zeroCell ⟨[[2, 0], [0, 1]], 4, false, some [(1, 4)], none⟩ (0, 0)) ∧
    aget (Board.givens ⟨[[2, 0], [0, 1]], 4, false, some [(1, 4)], none⟩) 4 ≠
      some ((0 : Int), (0 : Int)) ∧
    clueSkip ⟨[[2, 0], [0, 1]], 4, false, some [(1, 4)], none⟩ ((0 : Int), (0 : Int)) 3 = false ∧
    solve_backtracking ⟨[[2, 0], [0, 1]], 4, false, some [(1, 4)], none⟩ false (fun _ => false) =
      solve_backtracking (zeroCell ⟨[[2, 0], [0, 1]], 4, false, some [(1, 4)], none⟩ (0, 0))
        false (fun _ => false) ∧
    count_solutions ⟨[[2, 0], [0, 1]], 4, false, some [(1, 4)], none⟩ false 2 (fun _ => false) =
      count_solutions (zeroCell ⟨[[2, 0], [0, 1]], 4, false, some [(1, 4)], none⟩ (0, 0))
        false 2 (fun _ => false) := by
  have h := unmapped_display_cell_unconstrained ⟨[[2, 0], [0, 1]], 4, false, some [(1, 4)], none⟩
    ((0 : Int), (0 : Int)) (by decide) (by decide) (by decide)
  exact ⟨h.1, h.2.1 4, h.2.2.1 3, h.2.2.2.1 false (fun _ => false),
    h.2.2.2.2 false 2 (fun _ => false)⟩

/-- Claim C9 (confirmed): `validate_path` reads only the grid, `k` and the
adjacency mode; two boards that agree on those three fields — whatever their
`display_to_step` / `step_to_display` tables — validate every candidate path
identically. -/
theorem validate_path_ignores_mapping_tables (g : List (List Int)) (k : Int) (d : Bool)
    (m₁ s₁ m₂ s₂ : Option (List (Int × Int))) (p : List Coord) (od : Option Bool) :
    validate_path ⟨g, k, d, m₁, s₁⟩ p od = validate_path ⟨g, k, d, m₂, s₂⟩ p od := rfl

/-- Claim C10 (confirmed): in the state-passing embedding (`validatePathS`
returns the board the call leaves behind; the source assigns to no board
attribute) validating twice yields the identical result and the board —
all five fields — is unchanged after each call. -/
theorem validate_path_idempotent_and_pure (b : Board) (p : List Coord) (od : Option Bool) :
    (validatePathS b p od).2 = b ∧
    (validatePathS ((validatePathS b p od).2) p od).1 = (validatePathS b p od).1 ∧
    (validatePathS ((validatePathS b p od).2) p od).2 = b :=
  ⟨rfl, rfl, rfl⟩

/-- Claim C4 counterexample: with the wall-clock deadline already expired at
entry to every recursive step (`fun _ => true`), the Hamiltonian generator's
DFS does not unwind with a failure — it runs to completion and returns a full
path, because its body performs no deadline check at all. -/
theorem saw_ignores_expired_deadline :
    _random_saw_cover_all 2 false (0, 0) (fun _ l => l) (fun _ => true) =
      some [(0, 0), (1, 0), (1, 1), (0, 1)] ∧
    _random_saw_cover_all 2 false (0, 0) (fun _ l => l) (fun _ => true) ≠ none := by
  exact ⟨by decide, by decide⟩

/-- Claim C4 (amended): `solve_backtracking`'s DFS and `count_solutions`'
DFS evaluate the deadline at entry to every recursive step and unwind
immediately on expiry (returning no path / the best-effort count so far);
the Hamiltonian generator's DFS performs no deadline check — its result is
independent of the clock (it is bounded by the attempt budget instead). -/
theorem deadline_checked_in_solver_and_counter_not_generator :
    (∀ (b : Board) (diag : Bool) (giv : List (Int × Coord)) (timeUp : List Coord → Bool)
      (fuel : Nat) (step : Int) (path : List Coord), timeUp path = true →
      solveDfs b diag giv timeUp (fuel + 1) step path = none) ∧
    (∀ (b : Board) (diag : Bool) (giv : List (Int × Coord)) (limit : Int)
      (timeUp : List Coord → Bool) (fuel : Nat) (step : Int) (path : List Coord)
      (count : Int), timeUp path = true →
      countDfs b diag giv limit timeUp (fuel + 1) step path count = (true, count)) ∧
    (∀ (n : Nat) (diag : Bool) (shuffle : List Coord → List Coord → List Coord)
      (c₁ c₂ : List Coord → Bool) (fuel : Nat) (path : List Coord),
      sawDfs n diag shuffle c₁ fuel path = sawDfs n diag shuffle c₂ fuel path) := by
  refine ⟨?_, ?_, ?_⟩
  · intro b diag giv timeUp fuel step path h
    simp [solveDfs, h]
  · intro b diag giv limit timeUp fuel step path count h
    simp [countDfs, h]
  · intro n diag shuffle c₁ c₂ fuel path
    exact sawDfs_clock_irrelevant n diag shuffle c₁ c₂ fuel path

/-- Witness for the amended C4 theorem at a concrete input: an expired clock
makes the solver DFS unwind at entry. -/
theorem deadline_checked_witness :
    solveDfs ⟨[[1]], 1, false, none, none⟩ false [] (fun _ => true) 3 2
      [((0 : Int), (0 : Int))] = none :=
  deadline_checked_in_solver_and_counter_not_generator.1
    ⟨[[1]], 1, false, none, none⟩ false [] (fun _ => true) 2 2 [((0 : Int), (0 : Int))] rfl

/-- Claim C8 counterexample: a *non-None but empty* `display_to_step` dict is
falsy in Python, so the fallback `display == step` is used: on the board
`⟨[[1]], k = 1, display_to_step = some []⟩` the display value 1 is *not* a
key of the table, yet `givens` keeps the cell (the claim said it is omitted)
and the solver filter *does* constrain it (`clueSkip` at step 2 is true,
where the claim said the cell may be entered at any step). -/
theorem empty_mapping_dict_cell_not_omitted :
    aget (Board.givens ⟨[[1]], 1, false, some [], none⟩) 1 = some ((0 : Int), (0 : Int)) ∧
    clueSkip ⟨[[1]], 1, false, some [], none⟩ ((0 : Int), (0 : Int)) 2 = true := by
  exact ⟨by decide, by decide⟩

/-- Claim C5 counterexample: on a board whose clue set is `{1, 2, 3, 4}` but
whose `k` is 3, the path `[(0,0), (0,1), (1,1)]` encounters only the clue
indices `{1, 2, 3}` — not the board's full contiguous range `1..4` — yet
`validate_path` accepts it: the consecutiveness check inspects only the
clues *encountered*, so clues above the highest encountered one are never
required. -/
theorem validator_accepts_unreached_top_clue :
    validate_path ⟨[[1, 2], [4, 3]], 3, false, none, none⟩ [(0, 0), (0, 1), (1, 1)] none =
      (true, "OK") := by
  decide

/-- Claim C5 (amended): for any board and path that pass the length,
repetition, bounds, adjacency, start-clue and ordering checks, if the sorted
list of clue values encountered along the path is not exactly
`[1, 2, ..., m]` (no index skipped below the highest *encountered* clue),
`validate_path` rejects with the missing-or-skipped-clue reason at the first
gap.  (With `k = n*n` the path covers every cell, so for duplicate-free
boards the encountered clues are the board's whole clue set.) -/
theorem missing_clue_rejected (b : Board) (p : List Coord) (od : Option Bool)
    (cluePos : List (Int × Int))
    (hlen : ((p.length : Int) != b.k) = false)
    (hscan : scanPath b.grid (od.getD b.diag) 0 none [] [] p = Except.ok cluePos)
    (h1 : (keysOf cluePos).contains 1 = true)
    (hpos1 : ((aget cluePos 1).getD 0 != 1) = false)
    (hasc : cluesAscending cluePos
      (List.insertionSort (fun a b => a ≤ b) (keysOf cluePos)) = true)
    (hgap : List.insertionSort (fun a b => a ≤ b) (keysOf cluePos) ≠
      (List.range (List.insertionSort (fun a b => a ≤ b) (keysOf cluePos)).length).map
        (fun t : Nat => (t : Int) + 1)) :
    validate_path b p od = (false, "Missing or skipped clue number " ++
      toString ((firstGap 0
        (List.insertionSort (fun a b => a ≤ b) (keysOf cluePos))).getD 0)) := by
  have hsome : firstGap 0 (List.insertionSort (fun a b => a ≤ b) (keysOf cluePos)) ≠ none := by
    intro hnone
    exact hgap ((firstGap_zero_eq_none_iff _).mp hnone)
  obtain ⟨j, hj⟩ := Option.ne_none_iff_exists'.mp hsome
  rw [validate_path, validateCore]
  simp only [hlen, Bool.false_eq_true, if_false, hscan, h1, Bool.not_true, hpos1, hasc,
    Bool.not_false, if_true, hj, Option.getD_some]

/-- Witness for the amended C5 theorem: a 3x3 board carrying displays 1, 2
and 4 (clue 3 skipped); the full-coverage row snake passes every earlier
check and is rejected with "Missing or skipped clue number 3". -/
theorem missing_clue_rejected_witness :
    validate_path ⟨[[1, 2, 0], [0, 4, 0], [0, 0, 0]], 9, false, none, none⟩
      [(0, 0), (0, 1), (0, 2), (1, 2), (1, 1), (1, 0), (2, 0), (2, 1), (2, 2)] none =
      (false, "Missing or skipped clue number 3") := by
  exact missing_clue_rejected _ _ _ [(1, 1), (2, 2), (4, 5)]
    (by decide) rfl (by decide) (by decide) (by decide) (by decide)

/-- Claim C6 (confirmed): whenever a path passes every earlier validator
check but the recorded position of the highest encountered clue differs from
the final path index, `validate_path` fails with the path-must-end-at-clue
reason naming that clue. -/
theorem path_must_end_at_highest_clue (b : Board) (p : List Coord) (od : Option Bool)
    (cluePos : List (Int × Int))
    (hlen : ((p.length : Int) != b.k) = false)
    (hscan : scanPath b.grid (od.getD b.diag) 0 none [] [] p = Except.ok cluePos)
    (h1 : (keysOf cluePos).contains 1 = true)
    (hpos1 : ((aget cluePos 1).getD 0 != 1) = false)
    (hasc : cluesAscending cluePos
      (List.insertionSort (fun a b => a ≤ b) (keysOf cluePos)) = true)
    (hgap : firstGap 0 (List.insertionSort (fun a b => a ≤ b) (keysOf cluePos)) = none)
    (hend : (((aget cluePos
        ((List.insertionSort (fun a b => a ≤ b) (keysOf cluePos)).getLast?.getD 0)).getD 0) !=
        (p.length : Int)) = true) :
    validate_path b p od = (false, "Path must end at clue " ++
      toString ((List.insertionSort (fun a b => a ≤ b) (keysOf cluePos)).getLast?.getD 0) ++
      ", not continue beyond it") := by
  rw [validate_path, validateCore]
  simp only [hlen, Bool.false_eq_true, if_false, hscan, h1, Bool.not_true, hpos1, hasc,
    Bool.not_false, if_true, hgap, hend]

/-- Witness for C6: the spec's concrete scenario — 3x3 board, clue 1 at
(0,0), highest clue 2 at interior cell (1,1), full-coverage row snake — is
rejected with "Path must end at clue 2, not continue beyond it". -/
theorem path_must_end_witness :
    validate_path ⟨[[1, 0, 0], [0, 2, 0], [0, 0, 0]], 9, false, none, none⟩
      [(0, 0), (0, 1), (0, 2), (1, 2), (1, 1), (1, 0), (2, 0), (2, 1), (2, 2)] none =
      (false, "Path must end at clue 2, not continue beyond it") := by
  exact path_must_end_at_highest_clue _ _ _ [(1, 1), (2, 5)]
    (by decide) rfl (by decide) (by decide) (by decide) (by decide) (by decide)

/-- Claim C1 (code bug): at the concrete input n = 2, diag = false,
CLUE_START = 2, degenerate randomness, `generate_unique_puzzle` succeeds and
its third component is `{1: 1, 4: 2}` — keyed by *true steps* with
display-number values (`step_to_display`), the inverse of what the claim
(and `board.py`'s documentation of the `display_to_step` field, into which
`main.py` pipes this value) prescribe: display number 2 is visible in the
returned grid yet is not a key of the mapping, while 4 — not a display
number — is a key. -/
theorem generated_mapping_keyed_by_true_steps :
    generate_unique_puzzle 2 false ⟨40, false, 10, 2⟩ idOracles =
      some ([[1, 2], [0, 0]], [(0, 0), (1, 0), (1, 1), (0, 1)], [(1, 1), (4, 2)]) ∧
    gridValG [[1, 2], [0, 0]] 0 1 = 2 ∧
    aget ([(1, 1), (4, 2)] : List (Int × Int)) 2 = none ∧
    aget ([(1, 1), (4, 2)] : List (Int × Int)) 4 = some 2 := by
  refine ⟨by decide, by decide, by decide, by decide⟩

/-- Claim C7 counterexample: with the injected `CLUE_START = 2` (the
generator reads the ambient `config.CLUE_START`, not the `max(4, n)` bound
of `get_clue_bounds`), `generate_unique_puzzle 2 false` accepts a puzzle
with only 2 clues, below the claimed minimum `max(4, 2) = 4`. -/
theorem generated_puzzle_below_clue_minimum :
    generate_unique_puzzle 2 false ⟨40, false, 10, 2⟩ idOracles =
      some ([[1, 2], [0, 0]], [(0, 0), (1, 0), (1, 1), (0, 1)], [(1, 1), (4, 2)]) ∧
    (((([[1, 2], [0, 0]] : List (List Int)).flatten.filter
      (fun v => decide (0 < v))).length : Int) = 2) ∧
    ¬ ((get_clue_bounds 2).1 ≤ 2) := by
  refine ⟨by decide, by decide, by decide⟩

end Zip
